import Mathlib

/-!
# Verification of `actions/actionutils.go`

A shallow embedding of the action aggregator: the store `actionMap.data`
(`map[string][]int`), `validateAction`, `processAction`, `AddAction` and
`GetStats`, followed by theorems about them.

Conventions of the embedding

* Go `int` is the signed 64-bit integer: values are `Int`, and every
  arithmetic result is passed through `wrap64`.
* The global `actionMap.data` is passed explicitly: an operation takes the
  store before the call and returns the store after it.
* A run-time panic (index out of range, integer division by zero) is the
  result `none`.
* Library functions whose code is not part of the package (`json.Unmarshal`,
  `strings.ToLower`, `json.Marshal`) are parameters of the operations that
  call them.
* `log.Printf` only writes to the logger and is left out.
-/

set_option linter.dupNamespace false

namespace Actions

/-! ## Machine integers -/

/-- Two's-complement wrap-around of a mathematical integer into the range of
Go's `int` on a 64-bit platform, `-2^63 ≤ wrap64 x < 2^63`. -/
def wrap64 (x : Int) : Int := (x + 2 ^ 63) % 2 ^ 64 - 2 ^ 63

/-- Membership in the range of Go's `int`. -/
def InRange (x : Int) : Prop := -(2 ^ 63) ≤ x ∧ x < 2 ^ 63

instance (x : Int) : Decidable (InRange x) := by
  unfold InRange; exact inferInstance

/-- Go's `x / y` on `int`: `none` is the division-by-zero panic; the
quotient is truncated toward zero and wraps for `MinInt64 / -1`. -/
def goDiv (x y : Int) : Option Int :=
  if y = 0 then none else some (wrap64 (Int.tdiv x y))

/-! ## Data model -/

/-- The struct `Action`: json fields "action" and "time". -/
structure Action where
  Action : String
  Time : Int
  deriving DecidableEq, Repr

/-- The struct `AvgAction`: json fields "action" and "avg". -/
structure AvgAction where
  Action : String
  Avg : Int
  deriving DecidableEq, Repr

/-- The type `AvgActions`, a slice of `AvgAction`. -/
abbrev AvgActions := List AvgAction

/-- The field `actionMap.data`, a `map[string][]int`, as an association
list. The order of the list carries no meaning: `range` over a Go map may
visit the entries in any order (see `RangeOrder`). -/
abbrev Store := List (String × List Int)

/-- The empty map `make(map[string][]int)`. -/
def emptyStore : Store := []

/-- The map read `val, ok := data[key]`: `none` when `ok` is false. -/
def mapGet : Store → String → Option (List Int)
  | [], _ => none
  | (k, v) :: rest, key => if k = key then some v else mapGet rest key

/-- The map write `data[key] = val`: replaces the entry of `key` when there
is one and adds an entry otherwise. -/
def mapSet : Store → String → List Int → Store
  | [], key, val => [(key, val)]
  | (k, v) :: rest, key, val =>
    if k = key then (key, val) :: rest else (k, v) :: mapSet rest key val

/-- The keys of the map. -/
def keys (data : Store) : List String := data.map Prod.fst

/-- An error value returned by `AddAction`. -/
inductive GoError where
  /-- the non-nil error of `json.Unmarshal`, with its text -/
  | decode (msg : String)
  /-- the value `errors.New(msg)` -/
  | new (msg : String)
  deriving DecidableEq, Repr

/-! ## Operations -/

/-- The function `validateAction`; `none` is the `nil` error.
`fmt.Sprintf` with `%s` and `%d` is string concatenation with the decimal
rendering of the integer. -/
def validateAction (incomingAction : Action) : Option GoError :=
  if incomingAction.Action = "" then
    some (GoError.new ("Invaild action: " ++ incomingAction.Action))
  else if incomingAction.Time < 0 then
    some (GoError.new ("Invaild time value: " ++ toString incomingAction.Time))
  else
    none

/-- The function `processAction`, between `Lock` and `Unlock`. The slice of
an existing entry is updated in place: element 0 becomes
`val[0] + action.Time` and element 1 is incremented, further elements are
kept; a slice with fewer than two elements makes an index expression panic
(`none`). -/
def processAction (ToLower : String → String) (data : Store) (action : Action) :
    Option Store :=
  let actionKey := ToLower action.Action
  match mapGet data actionKey with
  | some val =>
    match val with
    | v0 :: v1 :: more =>
      some (mapSet data actionKey (wrap64 (v0 + action.Time) :: wrap64 (v1 + 1) :: more))
    | _ => none
  | none => some (mapSet data actionKey [action.Time, 1])

/-- The method `AddAction`. The result is `none` when the call panics and
otherwise the returned error (`none` for `nil`) with the store after the
call. The goroutine started for `processAction` is waited for on the
channel before `AddAction` returns, so the update is part of the call. -/
def AddAction (Unmarshal : String → Except String Action) (ToLower : String → String)
    (data : Store) (input : String) : Option (Option GoError × Store) :=
  match Unmarshal input with
  | .error msg => some (some (GoError.decode msg), data)
  | .ok incomingAction =>
    match validateAction incomingAction with
    | some validationError => some (some validationError, data)
    | none =>
      match processAction ToLower data incomingAction with
      | some data' => some (none, data')
      | none => none

/-- The loop of `GetStats` over the entries in the order `range` yields
them: one `AvgAction{key, val[0] / val[1]}` is appended per entry. -/
def avgStructs : Store → Option AvgActions
  | [] => some []
  | (key, val) :: rest =>
    match val with
    | v0 :: v1 :: _ =>
      match goDiv v0 v1 with
      | some avg => (avgStructs rest).map (fun done => AvgAction.mk key avg :: done)
      | none => none
    | _ => none

/-- The sequences of entries that `range actionMap.data` may yield for the
store `data`: every entry once, in any order. -/
def RangeOrder (data iter : Store) : Prop := List.Perm iter data

/-- The method `GetStats`, given the order `iter` in which `range` yields
the entries of the map: the marshalled records, or `none` on a panic. -/
def GetStats (Marshal : AvgActions → String) (iter : Store) : Option String :=
  (avgStructs iter).map Marshal

/-- Consecutive `AddAction` calls, the store left by each passed to the
next; the returned errors are dropped. -/
def addActions (Unmarshal : String → Except String Action) (ToLower : String → String) :
    Store → List String → Option Store
  | data, [] => some data
  | data, input :: rest =>
    match AddAction Unmarshal ToLower data input with
    | none => none
    | some (_, data') => addActions Unmarshal ToLower data' rest

/-- Consecutive `processAction` calls. -/
def processAll (ToLower : String → String) : Store → List Action → Option Store
  | data, [] => some data
  | data, action :: rest =>
    match processAction ToLower data action with
    | none => none
    | some data' => processAll ToLower data' rest

/-- ASCII lower-casing, the restriction of `strings.ToLower` to ASCII
letters; used to instantiate the `ToLower` parameter on concrete inputs. -/
def asciiLower (s : String) : String := String.mk (s.data.map Char.toLower)

/-! ## Bookkeeping used in the statements -/

/-- The events of a call sequence that reach `processAction`: the inputs
that decode and pass `validateAction`, in call order. -/
def accepted (Unmarshal : String → Except String Action) : List String → List Action
  | [] => []
  | input :: rest =>
    match Unmarshal input with
    | .error _ => accepted Unmarshal rest
    | .ok incomingAction =>
      if validateAction incomingAction = none then
        incomingAction :: accepted Unmarshal rest
      else accepted Unmarshal rest

/-- The durations, in order, of the events whose lower-cased name is `k`. -/
def timesFor (ToLower : String → String) (k : String) (events : List Action) : List Int :=
  (events.filter (fun e => decide (ToLower e.Action = k))).map (fun e => e.Time)

/-- The sum `processAction` leaves in an entry after the durations `ts` were
added to a first duration `t`, one wrapping addition each. -/
def storedSum (t : Int) (ts : List Int) : Int :=
  ts.foldl (fun acc x => wrap64 (acc + x)) t

/-- The entry `processAction` builds from the durations recorded for one key:
none for no duration, else the stored sum and the wrapped number of them. -/
def entryFor : List Int → Option (List Int)
  | [] => none
  | t :: ts => some [storedSum t ts, wrap64 ((ts.length : Int) + 1)]

/-- The store `data` holds exactly what the events `hist` put there: its keys
are distinct and each key maps to the entry of its durations. -/
def Tracks (ToLower : String → String) (data : Store) (hist : List Action) : Prop :=
  (keys data).Nodup ∧ ∀ k, mapGet data k = entryFor (timesFor ToLower k hist)

/-! ## The input decoder

`json.Unmarshal` is library code. The definitions of this section give the
decoder described by the specification (section 6, input schema), used where
a statement is about decoding itself and to run the operations on the input
texts of the tests. -/

deriving instance DecidableEq for Except

/-- Modelled from the spec: a numeric field value as written in the input
(the encoding of numbers is not part of the package): its sign, its integer
part, and whether a fraction part or an exponent part follows. -/
structure NumLit where
  negative : Bool
  whole : Nat
  fraction : Bool
  exponent : Bool
  deriving DecidableEq, Repr

/-- Modelled from the spec: the integer denoted by a numeric field value that
has neither fraction nor exponent. -/
def NumLit.value (n : NumLit) : Int :=
  if n.negative then -(n.whole : Int) else (n.whole : Int)

/-- Modelled from the spec: the value of a named field of an input record
(the structural encoding is not part of the package): a string, a number, or
anything else (a truth value, null, a sequence, a nested record). -/
inductive JValue where
  | str (s : String)
  | num (n : NumLit)
  | other
  deriving DecidableEq, Repr

/-- Modelled from the spec: the effect of one field of the input record on
the event being decoded (`json.Unmarshal` is not part of the package). The
field "action" must hold a string and the field "time" a whole number in the
signed 64-bit range, anything else being a decode failure; a field of any
other name is ignored. -/
def decodeField (acc : Action) (field : String × JValue) : Except String Action :=
  if field.1 = "action" then
    match field.2 with
    | .str s => .ok { acc with Action := s }
    | _ => .error "decode: field action is not a string"
  else if field.1 = "time" then
    match field.2 with
    | .num n =>
      if n.fraction = false ∧ n.exponent = false ∧ InRange n.value then
        .ok { acc with Time := n.value }
      else .error "decode: field time is not a whole number in the 64-bit range"
    | _ => .error "decode: field time is not a number"
  else .ok acc

/-- Modelled from the spec: the fields of the input record applied in order
of occurrence (`json.Unmarshal` is not part of the package), so that the last
occurrence of a repeated field wins; the first failure ends decoding. -/
def decodeFields : Action → List (String × JValue) → Except String Action
  | acc, [] => .ok acc
  | acc, field :: rest =>
    match decodeField acc field with
    | .ok acc' => decodeFields acc' rest
    | .error msg => .error msg

/-- Modelled from the spec: decoding of the raw input into an `Action`
(`json.Unmarshal` is not part of the package). The structural reader `parse`
yields the named fields of the record, or nothing for a malformed input; the
fields are applied to the zero value `Action{}`, so an absent "action" leaves
the empty name. -/
def jsonUnmarshal (parse : String → Option (List (String × JValue))) (input : String) :
    Except String Action :=
  match parse input with
  | none => .error "decode: malformed input"
  | some fields => decodeFields (Action.mk "" 0) fields

/-- Modelled from the spec: skips blanks between the tokens of the input
record (the structural encoding is not part of the package). -/
def skipWs : List Char → List Char
  | [] => []
  | c :: cs => if c = ' ' ∨ c = '\t' ∨ c = '\n' ∨ c = '\r' then skipWs cs else c :: cs

/-- Modelled from the spec: reads a quoted string after its opening quote, up
to the closing quote, with the escapes for quote, backslash, slash, newline,
tab and carriage return (the structural encoding is not part of the
package). -/
def readString : List Char → List Char → Option (String × List Char)
  | _, [] => none
  | acc, c :: cs =>
    if c = '"' then some (String.mk acc.reverse, cs)
    else if c = '\\' then
      match cs with
      | [] => none
      | e :: cs' =>
        if e = '"' ∨ e = '\\' ∨ e = '/' then readString (e :: acc) cs'
        else if e = 'n' then readString ('\n' :: acc) cs'
        else if e = 't' then readString ('\t' :: acc) cs'
        else if e = 'r' then readString ('\r' :: acc) cs'
        else none
    else if c.toNat < 32 then none
    else readString (c :: acc) cs

/-- Modelled from the spec: the value of a decimal digit (the structural
encoding is not part of the package). -/
def digitOf (c : Char) : Option Nat :=
  if 48 ≤ c.toNat ∧ c.toNat ≤ 57 then some (c.toNat - 48) else none

/-- Modelled from the spec: reads a run of decimal digits, giving the number
read so far, the count of digits and the remaining text (the structural
encoding is not part of the package). -/
def readDigits : Nat → Nat → List Char → Nat × Nat × List Char
  | acc, n, [] => (acc, n, [])
  | acc, n, c :: cs =>
    match digitOf c with
    | some d => readDigits (10 * acc + d) (n + 1) cs
    | none => (acc, n, c :: cs)

/-- Modelled from the spec: reads the optional fraction part of a number and
tells whether there is one (the structural encoding is not part of the
package). -/
def readFraction (cs : List Char) : Option (Bool × List Char) :=
  match cs with
  | c :: cs1 =>
    if c = '.' then
      match readDigits 0 0 cs1 with
      | (_, 0, _) => none
      | (_, _, cs2) => some (true, cs2)
    else some (false, cs)
  | [] => some (false, cs)

/-- Modelled from the spec: reads the optional exponent part of a number and
tells whether there is one (the structural encoding is not part of the
package). -/
def readExponent (cs : List Char) : Option (Bool × List Char) :=
  match cs with
  | c :: cs1 =>
    if c = 'e' ∨ c = 'E' then
      let cs2 := match cs1 with
        | s :: cs3 => if s = '+' ∨ s = '-' then cs3 else cs1
        | [] => cs1
      match readDigits 0 0 cs2 with
      | (_, 0, _) => none
      | (_, _, cs4) => some (true, cs4)
    else some (false, cs)
  | [] => some (false, cs)

/-- Modelled from the spec: reads a number: an optional minus sign, an
integer part without superfluous leading zero, an optional fraction and an
optional exponent (the structural encoding is not part of the package). -/
def readNumber (cs : List Char) : Option (NumLit × List Char) :=
  let signed : Bool × List Char := match cs with
    | c :: cs' => if c = '-' then (true, cs') else (false, cs)
    | [] => (false, cs)
  match readDigits 0 0 signed.2 with
  | (_, 0, _) => none
  | (w, n, cs2) =>
    if signed.2.head? = some '0' ∧ 1 < n then none
    else
      match readFraction cs2 with
      | none => none
      | some (fr, cs3) =>
        match readExponent cs3 with
        | none => none
        | some (ex, cs4) => some (NumLit.mk signed.1 w fr ex, cs4)

/-- Modelled from the spec: reads the items of a sequence or nested record,
separated by commas, up to the closing bracket `close` (the structural
encoding is not part of the package). -/
def readItems (readItem : List Char → Option (List Char)) (close : Char) :
    Nat → List Char → Option (List Char)
  | 0, _ => none
  | n + 1, cs =>
    match readItem (skipWs cs) with
    | none => none
    | some cs1 =>
      match skipWs cs1 with
      | c :: cs2 =>
        if c = close then some cs2
        else if c = ',' then readItems readItem close n cs2
        else none
      | [] => none

/-- Modelled from the spec: reads one field value; `fuel` bounds the nesting
depth (the structural encoding is not part of the package). -/
def readValue : Nat → List Char → Option (JValue × List Char)
  | 0, _ => none
  | fuel + 1, cs =>
    match cs with
    | [] => none
    | c :: cs1 =>
      if c = '"' then (readString [] cs1).map (fun r => (JValue.str r.1, r.2))
      else if c = '-' ∨ (digitOf c).isSome then
        (readNumber cs).map (fun r => (JValue.num r.1, r.2))
      else if c = '[' then
        match skipWs cs1 with
        | ']' :: cs2 => some (JValue.other, cs2)
        | _ =>
          (readItems (fun s => (readValue fuel s).map Prod.snd) ']' cs1.length cs1).map
            (fun r => (JValue.other, r))
      else if c.toNat = 123 then
        match skipWs cs1 with
        | [] => none
        | d :: cs2 =>
          if d.toNat = 125 then some (JValue.other, cs2)
          else
            (readItems (fun s =>
              match s with
              | '"' :: s1 =>
                match readString [] s1 with
                | some (_, s2) =>
                  match skipWs s2 with
                  | ':' :: s3 => (readValue fuel (skipWs s3)).map Prod.snd
                  | _ => none
                | none => none
              | _ => none) (Char.ofNat 125) cs1.length cs1).map (fun r => (JValue.other, r))
      else
        match cs with
        | 't' :: 'r' :: 'u' :: 'e' :: cs2 => some (JValue.other, cs2)
        | 'f' :: 'a' :: 'l' :: 's' :: 'e' :: cs2 => some (JValue.other, cs2)
        | 'n' :: 'u' :: 'l' :: 'l' :: cs2 => some (JValue.other, cs2)
        | _ => none

/-- Modelled from the spec: reads the named fields of a record after its
opening brace, up to the closing brace (the structural encoding is not part
of the package). -/
def readMembers : Nat → List Char → Option (List (String × JValue) × List Char)
  | 0, _ => none
  | n + 1, cs =>
    match skipWs cs with
    | '"' :: cs1 =>
      match readString [] cs1 with
      | some (name, cs2) =>
        match skipWs cs2 with
        | ':' :: cs3 =>
          match readValue cs3.length (skipWs cs3) with
          | some (v, cs4) =>
            match skipWs cs4 with
            | c :: cs5 =>
              if c.toNat = 125 then some ([(name, v)], cs5)
              else if c = ',' then
                (readMembers n cs5).map (fun r => ((name, v) :: r.1, r.2))
              else none
            | [] => none
          | none => none
        | _ => none
      | none => none
    | _ => none

/-- Modelled from the spec: the structural reader of the input text, a
record of named fields written between braces as in the examples of the
specification (the structural encoding is not part of the package); the
fields are given in order of occurrence, and a malformed text gives
nothing. -/
def parseRecord (input : String) : Option (List (String × JValue)) :=
  match skipWs input.data with
  | c :: cs =>
    if c.toNat = 123 then
      match skipWs cs with
      | [] => none
      | d :: rest =>
        if d.toNat = 125 then (if skipWs rest = [] then some [] else none)
        else
          match readMembers cs.length cs with
          | some (fields, rest') => if skipWs rest' = [] then some fields else none
          | none => none
    else none
  | [] => none

/-- The record the loop body of `GetStats` appends for one entry: the key
with the quotient of the first two elements of its slice. -/
def avgOf (entry : String × List Int) : AvgAction :=
  AvgAction.mk entry.1 (wrap64 (Int.tdiv (entry.2.getD 0 0) (entry.2.getD 1 0)))

/-- The events of the stress tests: `N` events named `name` with the
durations `1, 2, ..., N`. -/
def seqEvents (name : String) (N : Nat) : List Action :=
  (List.range N).map (fun (i : Nat) => Action.mk name ((i : Int) + 1))

/-- The input text of the stress tests,
`fmt.Sprintf` of the record with action "jump" and time `i`. -/
def jumpInput (i : Nat) : String :=
  "\x7b\"action\":\"jump\", \"time\":" ++ toString i ++ "\x7d"

/-- The four inputs of `TestAddActionMultipleEntry`, in call order. -/
def multipleEntryInputs : List String :=
  ["\x7b\"action\":\"jump\", \"time\":100\x7d", "\x7b\"action\":\"run\", \"time\":75\x7d",
   "\x7b\"action\":\"jump\", \"time\":200\x7d", "\x7b\"action\":\"jump\", \"time\":300\x7d"]

/-- The events the inputs of `TestAddActionMultipleEntry` decode to. -/
def multipleEntryEvents : List Action :=
  [Action.mk "jump" 100, Action.mk "run" 75, Action.mk "jump" 200, Action.mk "jump" 300]

/-! ## The report: loop state and encoding -/

/-- An entry on which the loop body of `GetStats` does not panic: its slice
has at least two elements and the second is not zero. -/
def EntryOk (entry : String × List Int) : Prop :=
  ∃ v0 v1 more, entry.2 = v0 :: v1 :: more ∧ v1 ≠ 0

/-- The slices on which `processAction` does not panic: every slice held by
the map has at least two elements, as has every slice `processAction`
creates. -/
def SlicesOk (data : Store) : Prop :=
  ∀ k val, mapGet data k = some val → ∃ v0 v1 more, val = v0 :: v1 :: more

/-- The state of `GetStats` while it runs: the global map and the local
variable `avgStructs`. -/
structure StatsState where
  data : Store
  avgStructs : AvgActions
  deriving DecidableEq, Repr

/-- One iteration of the loop of `GetStats` on the entry `range` yields: the
record of the entry is appended to the local slice; `none` is a panic. -/
def statsStep (st : StatsState) (entry : String × List Int) : Option StatsState :=
  match entry.2 with
  | v0 :: v1 :: _ =>
    match goDiv v0 v1 with
    | some avg => some { st with avgStructs := st.avgStructs ++ [AvgAction.mk entry.1 avg] }
    | none => none
  | _ => none

/-- The loop of `GetStats` from a given state over the entries in the order
`range` yields them. -/
def statsLoop : StatsState → Store → Option StatsState
  | st, [] => some st
  | st, entry :: rest =>
    match statsStep st entry with
    | some st' => statsLoop st' rest
    | none => none

/-- The method `GetStats` as a step on the program state: it starts with the
empty slice `AvgActions{}`, runs the loop over the entries `iter` that `range`
yields, and returns the marshalled slice; the result carries the store after
the call, and `none` is a panic. -/
def GetStatsRun (Marshal : AvgActions → String) (data iter : Store) :
    Option (String × Store) :=
  match statsLoop (StatsState.mk data []) iter with
  | some st => some (Marshal st.avgStructs, st.data)
  | none => none

/-- Modelled from the spec: the encoding of a string of the report between
double quotes (`json.Marshal` is not part of the package), with the quote, the
backslash, newline, tab and carriage return escaped. -/
def quoteString (s : String) : String :=
  String.mk ('"' :: (s.data.flatMap (fun c =>
    if c = '"' then ['\\', '"']
    else if c = '\\' then ['\\', '\\']
    else if c = '\n' then ['\\', 'n']
    else if c = '\t' then ['\\', 't']
    else if c = '\r' then ['\\', 'r']
    else [c])) ++ ['"'])

/-- Modelled from the spec: the encoding of one record of the report
(`json.Marshal` is not part of the package), the field "action" with the
string and the field "avg" with the integer in decimal, as in the output
schema of section 6. -/
def marshalRecord (r : AvgAction) : String :=
  "\x7b\"action\":" ++ quoteString r.Action ++ ",\"avg\":" ++ toString r.Avg ++ "\x7d"

/-- Modelled from the spec: the encoding of the report as a structural array
of its records, in order (`json.Marshal` is not part of the package); the
empty slice `AvgActions{}` is encoded as the empty array. -/
def jsonMarshal (recs : AvgActions) : String :=
  "[" ++ String.intercalate "," (recs.map marshalRecord) ++ "]"

/-! ## The fields of an input record -/

/-- Modelled from the spec: the value of the last field named `name` of an
input record, if there is one (section 6: last occurrence wins). -/
def fieldValue (name : String) (fields : List (String × JValue)) : Option JValue :=
  ((fields.filter (fun f => decide (f.1 = name))).getLast?).map Prod.snd

/-- Modelled from the spec: the name an input record gives to the event, the
string of its last field "action", and the empty string when that field is
absent (section 6). -/
def nameOf (fields : List (String × JValue)) : String :=
  match fieldValue "action" fields with
  | some (JValue.str s) => s
  | _ => ""

/-- Modelled from the spec: the duration an input record gives to the event,
the number of its last field "time", and the zero value of `Action{}` when
that field is absent. -/
def timeOf (fields : List (String × JValue)) : Int :=
  match fieldValue "time" fields with
  | some (JValue.num n) => n.value
  | _ => 0

/-- Modelled from the spec: an input record that has the shape of the input
schema of section 6: every field "action" holds a string and every field
"time" holds a whole number in the signed 64-bit range. -/
def WellFormed (fields : List (String × JValue)) : Prop :=
  ∀ f ∈ fields,
    (f.1 = "action" → ∃ s, f.2 = JValue.str s) ∧
    (f.1 = "time" → ∃ n, f.2 = JValue.num n ∧ n.fraction = false ∧ n.exponent = false ∧
      InRange n.value)

instance (v : JValue) : Decidable (∃ s, v = JValue.str s) :=
  match v with
  | .str s => isTrue ⟨s, rfl⟩
  | .num _ => isFalse (fun h => by obtain ⟨s, hs⟩ := h; cases hs)
  | .other => isFalse (fun h => by obtain ⟨s, hs⟩ := h; cases hs)

instance (v : JValue) : Decidable (∃ n, v = JValue.num n ∧ n.fraction = false ∧
    n.exponent = false ∧ InRange n.value) :=
  match v with
  | .num n =>
    if h : n.fraction = false ∧ n.exponent = false ∧ InRange n.value then
      isTrue ⟨n, rfl, h⟩
    else
      isFalse (fun hex => by
        obtain ⟨m, hm, hrest⟩ := hex
        cases hm
        exact h hrest)
  | .str _ => isFalse (fun h => by obtain ⟨n, hn, _⟩ := h; cases hn)
  | .other => isFalse (fun h => by obtain ⟨n, hn, _⟩ := h; cases hn)

instance (fields : List (String × JValue)) : Decidable (WellFormed fields) := by
  unfold WellFormed; exact inferInstance

/-- The input of `TestJsonExtraAndDuplicateData`. -/
def extraAndDuplicateInput : String :=
  "\x7b\"action\":\"jump\", \"fox\":\"ran\", \"5\":34, \"time\":150, \"Valid\": \"string\", \"time\":200\x7d"

/-! # Theorems -/
/-! ## Machine arithmetic -/

theorem wrap64_of_inRange {x : Int} (h : InRange x) : wrap64 x = x := by
  unfold InRange at h
  unfold wrap64
  omega

theorem wrap64_inRange (x : Int) : InRange (wrap64 x) := by
  unfold InRange wrap64
  omega

theorem wrap64_add_wrap64 (a b : Int) : wrap64 (wrap64 a + b) = wrap64 (a + b) := by
  unfold wrap64
  omega

theorem wrap64_one : wrap64 1 = 1 := by decide

/-! ## The map operations -/

theorem mapGet_mapSet_same (data : Store) (key : String) (val : List Int) :
    mapGet (mapSet data key val) key = some val := by
  induction data with
  | nil => simp [mapSet, mapGet]
  | cons p rest ih =>
    obtain ⟨k, v⟩ := p
    by_cases h : k = key
    · simp [mapSet, mapGet, h]
    · simp [mapSet, mapGet, h, ih]

theorem mapGet_mapSet_other (data : Store) (key other : String) (val : List Int)
    (h : other ≠ key) : mapGet (mapSet data key val) other = mapGet data other := by
  induction data with
  | nil => simp [mapSet, mapGet, Ne.symm h]
  | cons p rest ih =>
    obtain ⟨k, v⟩ := p
    by_cases hk : k = key
    · subst hk
      simp [mapSet, mapGet, Ne.symm h]
    · by_cases ho : k = other
      · subst ho
        simp [mapSet, mapGet, hk]
      · simp [mapSet, mapGet, hk, ho, ih]

theorem mapGet_eq_none_iff (data : Store) (key : String) :
    mapGet data key = none ↔ key ∉ keys data := by
  induction data with
  | nil => simp [mapGet, keys]
  | cons p rest ih =>
    obtain ⟨k, v⟩ := p
    by_cases h : k = key
    · simp [mapGet, keys, h]
    · have h' : ¬ key = k := fun e => h e.symm
      simp only [mapGet, h, if_false, ih]
      simp [keys, h']

theorem keys_mapSet_present (data : Store) (key : String) (val : List Int)
    (h : key ∈ keys data) : keys (mapSet data key val) = keys data := by
  induction data with
  | nil => simp [keys] at h
  | cons p rest ih =>
    obtain ⟨k, v⟩ := p
    by_cases hk : k = key
    · simp [mapSet, keys, hk]
    · have hmem : key ∈ keys rest := by
        have : key = k ∨ key ∈ keys rest := by simpa [keys] using h
        rcases this with e | e
        · exact absurd e.symm hk
        · exact e
      have := ih hmem
      simp only [keys] at this ⊢
      simp [mapSet, hk, this]

theorem keys_mapSet_absent (data : Store) (key : String) (val : List Int)
    (h : key ∉ keys data) : keys (mapSet data key val) = keys data ++ [key] := by
  induction data with
  | nil => simp [keys, mapSet]
  | cons p rest ih =>
    obtain ⟨k, v⟩ := p
    have hk : ¬ k = key := by
      intro e; apply h; simp [keys, e]
    have hmem : key ∉ keys rest := by
      intro e; apply h; simp only [keys] at e ⊢; simp [e]
    have := ih hmem
    simp only [keys] at this ⊢
    simp [mapSet, hk, this]

theorem nodup_keys_mapSet (data : Store) (key : String) (val : List Int)
    (h : (keys data).Nodup) : (keys (mapSet data key val)).Nodup := by
  by_cases hmem : key ∈ keys data
  · rw [keys_mapSet_present data key val hmem]; exact h
  · rw [keys_mapSet_absent data key val hmem]
    exact List.Nodup.append h (List.nodup_singleton key) (by simpa using hmem)

theorem mem_of_mapGet {data : Store} {key : String} {val : List Int}
    (h : mapGet data key = some val) : (key, val) ∈ data := by
  induction data with
  | nil => simp [mapGet] at h
  | cons p rest ih =>
    obtain ⟨k, v⟩ := p
    by_cases hk : k = key
    · simp [mapGet, hk] at h
      simp [hk, h]
    · simp only [mapGet, hk, if_false] at h
      exact List.mem_cons_of_mem _ (ih h)

theorem mapGet_of_mem {data : Store} {key : String} {val : List Int}
    (hnd : (keys data).Nodup) (h : (key, val) ∈ data) : mapGet data key = some val := by
  induction data with
  | nil => simp at h
  | cons p rest ih =>
    obtain ⟨k, v⟩ := p
    have hnd' : k ∉ keys rest ∧ (keys rest).Nodup := by simpa [keys] using hnd
    rcases List.mem_cons.mp h with e | e
    · cases e
      simp [mapGet]
    · have hne : ¬ k = key := by
        intro hk
        apply hnd'.1
        rw [hk]
        exact List.mem_map.mpr ⟨(key, val), e, rfl⟩
      simp only [mapGet, hne, if_false]
      exact ih hnd'.2 e

/-! ## What a sequence of updates leaves in the store -/

theorem timesFor_append (ToLower : String → String) (k : String) (xs ys : List Action) :
    timesFor ToLower k (xs ++ ys) = timesFor ToLower k xs ++ timesFor ToLower k ys := by
  simp [timesFor]

theorem timesFor_single_same (ToLower : String → String) (e : Action) :
    timesFor ToLower (ToLower e.Action) [e] = [e.Time] := by
  simp [timesFor]

theorem timesFor_single_other (ToLower : String → String) (k : String) (e : Action)
    (h : k ≠ ToLower e.Action) : timesFor ToLower k [e] = [] := by
  simp [timesFor, Ne.symm h]

theorem storedSum_snoc (t : Int) (ts : List Int) (x : Int) :
    storedSum t (ts ++ [x]) = wrap64 (storedSum t ts + x) := by
  simp [storedSum, List.foldl_append]

theorem entryFor_snoc_nil (x : Int) : entryFor ([] ++ [x]) = some [x, 1] := by
  simp [entryFor, storedSum, wrap64_one]

theorem entryFor_snoc_cons (t : Int) (ts : List Int) (x : Int) :
    entryFor ((t :: ts) ++ [x]) =
      some [wrap64 (storedSum t ts + x), wrap64 (wrap64 ((ts.length : Int) + 1) + 1)] := by
  simp only [List.cons_append, entryFor, storedSum_snoc, wrap64_add_wrap64]
  simp

theorem tracks_empty (ToLower : String → String) : Tracks ToLower emptyStore [] := by
  constructor
  · simp [keys, emptyStore]
  · intro k
    simp [mapGet, emptyStore, timesFor, entryFor]

theorem tracks_step (ToLower : String → String) (data : Store) (hist : List Action)
    (e : Action) (h : Tracks ToLower data hist) :
    ∃ data', processAction ToLower data e = some data' ∧
      Tracks ToLower data' (hist ++ [e]) := by
  obtain ⟨hnd, hget⟩ := h
  have hkey := hget (ToLower e.Action)
  cases hts : timesFor ToLower (ToLower e.Action) hist with
  | nil =>
    rw [hts] at hkey
    simp only [entryFor] at hkey
    refine ⟨mapSet data (ToLower e.Action) [e.Time, 1], ?_, ?_, ?_⟩
    · simp [processAction, hkey]
    · exact nodup_keys_mapSet _ _ _ hnd
    · intro k
      by_cases hk : k = ToLower e.Action
      · subst hk
        rw [mapGet_mapSet_same, timesFor_append, hts, timesFor_single_same, entryFor_snoc_nil]
      · rw [mapGet_mapSet_other _ _ _ _ hk, timesFor_append,
          timesFor_single_other _ _ _ hk, List.append_nil]
        exact hget k
  | cons t ts =>
    rw [hts] at hkey
    simp only [entryFor] at hkey
    refine ⟨mapSet data (ToLower e.Action)
      [wrap64 (storedSum t ts + e.Time), wrap64 (wrap64 ((ts.length : Int) + 1) + 1)],
      ?_, ?_, ?_⟩
    · simp [processAction, hkey]
    · exact nodup_keys_mapSet _ _ _ hnd
    · intro k
      by_cases hk : k = ToLower e.Action
      · subst hk
        rw [mapGet_mapSet_same, timesFor_append, hts, timesFor_single_same,
          entryFor_snoc_cons]
      · rw [mapGet_mapSet_other _ _ _ _ hk, timesFor_append,
          timesFor_single_other _ _ _ hk, List.append_nil]
        exact hget k

theorem tracks_processAll (ToLower : String → String) (events : List Action) :
    ∀ (data : Store) (hist : List Action), Tracks ToLower data hist →
      ∃ out, processAll ToLower data events = some out ∧
        Tracks ToLower out (hist ++ events) := by
  induction events with
  | nil =>
    intro data hist h
    exact ⟨data, rfl, by simpa using h⟩
  | cons e rest ih =>
    intro data hist h
    obtain ⟨data', hstep, htr⟩ := tracks_step ToLower data hist e h
    obtain ⟨out, hout, htr'⟩ := ih data' (hist ++ [e]) htr
    refine ⟨out, ?_, ?_⟩
    · simp [processAll, hstep, hout]
    · simpa using htr'

theorem addActions_eq_processAll (Unmarshal : String → Except String Action)
    (ToLower : String → String) (inputs : List String) :
    ∀ data : Store, addActions Unmarshal ToLower data inputs =
      processAll ToLower data (accepted Unmarshal inputs) := by
  induction inputs with
  | nil => intro data; rfl
  | cons input rest ih =>
    intro data
    cases hu : Unmarshal input with
    | error msg => simp [addActions, AddAction, accepted, hu, ih]
    | ok a =>
      cases hv : validateAction a with
      | some err => simp [addActions, AddAction, accepted, hu, hv, ih]
      | none =>
        cases hp : processAction ToLower data a with
        | none => simp [addActions, AddAction, accepted, hu, hv, hp, processAll]
        | some data' => simp [addActions, AddAction, accepted, hu, hv, hp, processAll, ih]

theorem tracks_addActions (Unmarshal : String → Except String Action)
    (ToLower : String → String) (inputs : List String) :
    ∃ out, addActions Unmarshal ToLower emptyStore inputs = some out ∧
      Tracks ToLower out (accepted Unmarshal inputs) := by
  obtain ⟨out, h1, h2⟩ :=
    tracks_processAll ToLower (accepted Unmarshal inputs) emptyStore [] (tracks_empty ToLower)
  exact ⟨out, by rw [addActions_eq_processAll, h1], by simpa using h2⟩

theorem storedSum_eq_wrap (t : Int) (ts : List Int) (ht : InRange t) :
    storedSum t ts = wrap64 (t + ts.sum) := by
  induction ts using List.reverseRecOn with
  | nil => simp [storedSum, wrap64_of_inRange ht]
  | append_singleton ts x ih =>
    rw [storedSum_snoc, ih, wrap64_add_wrap64]
    simp [add_assoc]

theorem storedSum_eq_sum (t : Int) (ts : List Int) (ht : 0 ≤ t)
    (hts : ∀ x ∈ ts, 0 ≤ x) (hsum : t + ts.sum < 2 ^ 63) :
    storedSum t ts = t + ts.sum := by
  have h0 : 0 ≤ ts.sum := List.sum_nonneg hts
  have hr : InRange t := by unfold InRange; omega
  rw [storedSum_eq_wrap t ts hr]
  apply wrap64_of_inRange
  unfold InRange; omega

theorem timesFor_length_le (ToLower : String → String) (k : String) (events : List Action) :
    (timesFor ToLower k events).length ≤ events.length := by
  simp only [timesFor, List.length_map]
  exact List.length_filter_le _ _

theorem timesFor_nonneg (ToLower : String → String) (k : String) (events : List Action)
    (h : ∀ e ∈ events, 0 ≤ e.Time) : ∀ x ∈ timesFor ToLower k events, 0 ≤ x := by
  intro x hx
  simp only [timesFor, List.mem_map, List.mem_filter] at hx
  obtain ⟨e, ⟨he, _⟩, rfl⟩ := hx
  exact h e he

theorem wrap64_count (n : Nat) (h : (n : Int) + 1 < 2 ^ 63) :
    wrap64 ((n : Int) + 1) = (n : Int) + 1 := by
  apply wrap64_of_inRange
  unfold InRange; omega

/-- Every entry of a tracked store is the entry of the durations of its key. -/
theorem tracks_entry {ToLower : String → String} {data : Store} {hist : List Action}
    (h : Tracks ToLower data hist) {k : String} {v : List Int} (hmem : (k, v) ∈ data) :
    ∃ t ts, timesFor ToLower k hist = t :: ts ∧
      v = [storedSum t ts, wrap64 ((ts.length : Int) + 1)] := by
  have hget := mapGet_of_mem h.1 hmem
  rw [h.2 k] at hget
  cases hts : timesFor ToLower k hist with
  | nil => rw [hts] at hget; simp [entryFor] at hget
  | cons t ts =>
    rw [hts] at hget
    simp only [entryFor, Option.some.injEq] at hget
    exact ⟨t, ts, rfl, hget.symm⟩

/-- A key with at least one recorded duration has an entry in a tracked store. -/
theorem tracks_mem {ToLower : String → String} {data : Store} {hist : List Action}
    (h : Tracks ToLower data hist) {k : String} {t : Int} {ts : List Int}
    (hts : timesFor ToLower k hist = t :: ts) :
    (k, [storedSum t ts, wrap64 ((ts.length : Int) + 1)]) ∈ data := by
  apply mem_of_mapGet
  rw [h.2 k, hts, entryFor]

theorem avgStructs_eq_map (iter : Store)
    (h : ∀ p ∈ iter, ∃ s c, p.2 = [s, c] ∧ c ≠ 0) :
    avgStructs iter = some (iter.map avgOf) := by
  induction iter with
  | nil => rfl
  | cons p rest ih =>
    obtain ⟨k, v⟩ := p
    obtain ⟨s, c, hv, hc⟩ := h (k, v) (List.mem_cons_self _ _)
    simp only at hv
    subst hv
    have ih' := ih (fun q hq => h q (List.mem_cons_of_mem _ hq))
    simp [avgStructs, goDiv, hc, ih', avgOf]

theorem goAvg_of_nonneg (s c : Int) (hs : 0 ≤ s) (hs' : s < 2 ^ 63) (hc : 0 < c) :
    wrap64 (Int.tdiv s c) = s / c := by
  rw [Int.tdiv_eq_ediv hs (le_of_lt hc)]
  apply wrap64_of_inRange
  have h1 : s / c ≤ s := Int.ediv_le_self c hs
  have h2 : 0 ≤ s / c := Int.ediv_nonneg hs (le_of_lt hc)
  unfold InRange; omega

theorem accepted_of_valid (Unmarshal : String → Except String Action) :
    ∀ (inputs : List String) (events : List Action),
      inputs.map Unmarshal = events.map Except.ok →
      (∀ e ∈ events, e.Action ≠ "" ∧ 0 ≤ e.Time) →
      accepted Unmarshal inputs = events := by
  intro inputs
  induction inputs with
  | nil =>
    intro events h _
    cases events with
    | nil => rfl
    | cons e es => simp at h
  | cons input rest ih =>
    intro events h hv
    cases events with
    | nil => simp at h
    | cons e es =>
      simp only [List.map_cons, List.cons.injEq] at h
      have hv1 := hv e (List.mem_cons_self _ _)
      have hval : validateAction e = none := by
        simp [validateAction, hv1.1, not_lt.mpr hv1.2]
      have hrest := ih es h.2 (fun x hx => hv x (List.mem_cons_of_mem _ hx))
      simp [accepted, h.1, hval, hrest]

theorem accepted_time_nonneg (Unmarshal : String → Except String Action)
    (inputs : List String) : ∀ e ∈ accepted Unmarshal inputs, 0 ≤ e.Time := by
  induction inputs with
  | nil => intro e he; simp [accepted] at he
  | cons input rest ih =>
    intro e he
    cases hu : Unmarshal input with
    | error msg =>
      simp only [accepted, hu] at he
      exact ih e he
    | ok a =>
      simp only [accepted, hu] at he
      by_cases hv : validateAction a = none
      · simp only [hv, if_true] at he
        rcases List.mem_cons.mp he with rfl | h
        · by_contra hneg
          by_cases hn : e.Action = ""
          · simp [validateAction, hn] at hv
          · simp [validateAction, hn, not_le.mp hneg] at hv
        · exact ih e h
      · simp only [hv, if_false] at he
        exact ih e he

theorem accepted_length_le (Unmarshal : String → Except String Action)
    (inputs : List String) : (accepted Unmarshal inputs).length ≤ inputs.length := by
  induction inputs with
  | nil => simp [accepted]
  | cons input rest ih =>
    cases hu : Unmarshal input with
    | error msg => simp only [accepted, hu, List.length_cons]; omega
    | ok a =>
      by_cases hv : validateAction a = none
      · simp only [accepted, hu, hv, if_true, List.length_cons]; omega
      · simp only [accepted, hu, hv, if_false, List.length_cons]; omega

/-- In a tracked store with fewer than `2^63` events every entry has exactly
two elements, the second being the exact positive number of its events. -/
theorem tracks_entry_count {ToLower : String → String} {data : Store} {hist : List Action}
    (h : Tracks ToLower data hist) (hlen : (hist.length : Int) < 2 ^ 63)
    {k : String} {v : List Int} (hmem : (k, v) ∈ data) :
    ∃ t ts, timesFor ToLower k hist = t :: ts ∧
      v = [storedSum t ts, (ts.length : Int) + 1] := by
  obtain ⟨t, ts, hts, hv⟩ := tracks_entry h hmem
  have hle := timesFor_length_le ToLower k hist
  rw [hts, List.length_cons] at hle
  have hc : wrap64 ((ts.length : Int) + 1) = (ts.length : Int) + 1 := by
    apply wrap64_count
    omega
  exact ⟨t, ts, hts, by rw [hv, hc]⟩

theorem tracks_avgStructs {ToLower : String → String} {data iter : Store}
    {hist : List Action} (h : Tracks ToLower data hist)
    (hlen : (hist.length : Int) < 2 ^ 63) (hiter : RangeOrder data iter) :
    avgStructs iter = some (iter.map avgOf) := by
  apply avgStructs_eq_map
  intro p hp
  obtain ⟨k, v⟩ := p
  have hmem : (k, v) ∈ data := (List.Perm.mem_iff hiter).mp hp
  obtain ⟨t, ts, _, hv⟩ := tracks_entry_count h hlen hmem
  exact ⟨storedSum t ts, (ts.length : Int) + 1, hv, by omega⟩

/-- C1 (amended): for fewer than `2^63` valid events recorded from the empty
store, and a key `k` of one of them whose durations sum to less than `2^63`,
`AddAction` never panics and, whatever order `range` visits the map in,
`GetStats` builds a record for `k` and every record for `k` carries the
average `sum / count` of the durations recorded for `k`. -/
theorem GetStats_reports_average (Unmarshal : String → Except String Action)
    (ToLower : String → String) (inputs : List String) (events : List Action) (k : String)
    (hdecode : inputs.map Unmarshal = events.map Except.ok)
    (hvalid : ∀ e ∈ events, e.Action ≠ "" ∧ 0 ≤ e.Time)
    (hk : ∃ e ∈ events, ToLower e.Action = k)
    (hlen : (events.length : Int) < 2 ^ 63)
    (hsum : (timesFor ToLower k events).sum < 2 ^ 63) :
    ∃ data, addActions Unmarshal ToLower emptyStore inputs = some data ∧
      ∀ iter, RangeOrder data iter →
        ∃ recs, avgStructs iter = some recs ∧
          (∀ Marshal, GetStats Marshal iter = some (Marshal recs)) ∧
          (∃ r ∈ recs, r.Action = k) ∧
          ∀ r ∈ recs, r.Action = k →
            r.Avg = (timesFor ToLower k events).sum /
              ((timesFor ToLower k events).length : Int) := by
  obtain ⟨data, hrun, htr⟩ := tracks_addActions Unmarshal ToLower inputs
  rw [accepted_of_valid Unmarshal inputs events hdecode hvalid] at htr
  refine ⟨data, hrun, ?_⟩
  intro iter hiter
  have havg := tracks_avgStructs htr hlen hiter
  refine ⟨iter.map avgOf, havg, ?_, ?_, ?_⟩
  · intro Marshal
    simp [GetStats, havg]
  · obtain ⟨e, he, hek⟩ := hk
    have hne : timesFor ToLower k events ≠ [] := by
      intro hnil
      have : e.Time ∈ timesFor ToLower k events := by
        simp only [timesFor, List.mem_map, List.mem_filter]
        exact ⟨e, ⟨he, by simp [hek]⟩, rfl⟩
      rw [hnil] at this
      simp at this
    cases hts : timesFor ToLower k events with
    | nil => exact absurd hts hne
    | cons t ts =>
      have hmem := tracks_mem htr hts
      have hmem' := (List.Perm.mem_iff hiter).mpr hmem
      exact ⟨avgOf (k, [storedSum t ts, wrap64 ((ts.length : Int) + 1)]),
        List.mem_map.mpr ⟨_, hmem', rfl⟩, rfl⟩
  · intro r hr hrk
    obtain ⟨p, hp, rfl⟩ := List.mem_map.mp hr
    obtain ⟨k', v⟩ := p
    have hk' : k' = k := hrk
    subst hk'
    have hmem : (k', v) ∈ data := (List.Perm.mem_iff hiter).mp hp
    obtain ⟨t, ts, hts, hv⟩ := tracks_entry_count htr hlen hmem
    have hnn := timesFor_nonneg ToLower k' events (fun e he => (hvalid e he).2)
    rw [hts] at hnn hsum
    have ht0 : 0 ≤ t := hnn t (List.mem_cons_self _ _)
    have hts0 : ∀ x ∈ ts, 0 ≤ x := fun x hx => hnn x (List.mem_cons_of_mem _ hx)
    have hs0 : 0 ≤ ts.sum := List.sum_nonneg hts0
    rw [List.sum_cons] at hsum
    rw [hts, hv, storedSum_eq_sum t ts ht0 hts0 hsum]
    simp only [avgOf, List.getD_cons_zero, List.getD_cons_succ, List.sum_cons,
      List.length_cons]
    rw [goAvg_of_nonneg _ _ (by omega) hsum (by omega)]
    push_cast
    rfl

theorem length_le_one_of_nodup_const {α : Type} (a : α) :
    ∀ l : List α, l.Nodup → (∀ x ∈ l, x = a) → l.length ≤ 1
  | [], _, _ => by simp
  | [_], _, _ => by simp
  | x :: y :: rest, hnd, hall => by
    exfalso
    have hx : x = a := hall x (by simp)
    have hy : y = a := hall y (by simp)
    rw [hx, hy] at hnd
    simp at hnd

/-- A tracked store whose events all have the key `k` has exactly the one
entry of `k`. -/
theorem tracks_single_key {ToLower : String → String} {data : Store} {hist : List Action}
    (h : Tracks ToLower data hist) (k : String)
    (hall : ∀ e ∈ hist, ToLower e.Action = k) (hne : hist ≠ []) :
    ∃ t ts, timesFor ToLower k hist = t :: ts ∧
      data = [(k, [storedSum t ts, wrap64 ((ts.length : Int) + 1)])] := by
  have hfull : timesFor ToLower k hist = hist.map (fun e => e.Time) := by
    simp only [timesFor]
    congr 1
    apply List.filter_eq_self.mpr
    intro e he
    simp [hall e he]
  cases hts : timesFor ToLower k hist with
  | nil =>
    rw [hfull] at hts
    exact absurd (List.map_eq_nil_iff.mp hts) hne
  | cons t ts =>
    refine ⟨t, ts, rfl, ?_⟩
    have hmem := tracks_mem h hts
    have hkeys : ∀ x ∈ keys data, x = k := by
      intro x hx
      obtain ⟨p, hp, rfl⟩ := List.mem_map.mp hx
      obtain ⟨k', v⟩ := p
      obtain ⟨t', ts', hts', _⟩ := tracks_entry h hp
      have hin : t' ∈ timesFor ToLower k' hist := by rw [hts']; simp
      simp only [timesFor, List.mem_map, List.mem_filter] at hin
      obtain ⟨e, ⟨he, hek⟩, _⟩ := hin
      have := hall e he
      simp only [decide_eq_true_eq] at hek
      simp only
      rw [← hek, this]
    have hlen := length_le_one_of_nodup_const k (keys data) h.1 hkeys
    simp only [keys, List.length_map] at hlen
    match data, hmem, hlen with
    | [p], hmem, _ => simpa using (List.mem_singleton.mp hmem).symm

theorem sum_one_to_N (N : Nat) :
    ((List.range N).map (fun (i : Nat) => ((i : Int) + 1))).sum * 2 = (N : Int) * ((N : Int) + 1) := by
  induction N with
  | zero => simp
  | succ n ih =>
    rw [List.sum_range_succ, add_mul, ih]
    push_cast
    ring

theorem sum_one_to_N_div (N : Nat) :
    ((List.range N).map (fun (i : Nat) => ((i : Int) + 1))).sum = (N : Int) * ((N : Int) + 1) / 2 := by
  have h := sum_one_to_N N
  omega

theorem timesFor_seqEvents (ToLower : String → String) (name : String) (N : Nat) :
    timesFor ToLower (ToLower name) (seqEvents name N) =
      (List.range N).map (fun (i : Nat) => ((i : Int) + 1)) := by
  simp only [timesFor, seqEvents, List.filter_map, List.map_map]
  have : List.filter ((fun e => decide (ToLower e.Action = ToLower name)) ∘
      fun (i : Nat) => Action.mk name ((i : Int) + 1)) (List.range N) = List.range N := by
    apply List.filter_eq_self.mpr
    intro i _
    simp
  rw [this]
  rfl

theorem timesFor_perm (ToLower : String → String) (k : String) {xs ys : List Action}
    (h : xs.Perm ys) : (timesFor ToLower k xs).Perm (timesFor ToLower k ys) :=
  (h.filter _).map _

/-- The store left by the events of `seqEvents name N` in any order. -/
theorem processAll_seqEvents (ToLower : String → String) (events : List Action)
    (name : String) (N : Nat) (hN : 1 ≤ N) (hbound : (N : Int) < 2 ^ 63)
    (hperm : events.Perm (seqEvents name N)) :
    processAll ToLower emptyStore events =
      some [(ToLower name, [wrap64 ((N : Int) * ((N : Int) + 1) / 2), wrap64 (N : Int)])] := by
  have hmemseq : ∀ e ∈ events, e.Action = name ∧ 1 ≤ e.Time ∧ e.Time ≤ N := by
    intro e he
    have := (List.Perm.mem_iff hperm).mp he
    simp only [seqEvents, List.mem_map, List.mem_range] at this
    obtain ⟨i, hi, rfl⟩ := this
    simp only [true_and]
    omega
  obtain ⟨data, hrun, htr⟩ := tracks_processAll ToLower events emptyStore []
    (tracks_empty ToLower)
  rw [List.nil_append] at htr
  have hlenev : events.length = N := by
    rw [hperm.length_eq]; simp [seqEvents]
  have hne : events ≠ [] := by
    intro h; rw [h] at hlenev; simp at hlenev; omega
  obtain ⟨t, ts, hts, hdata⟩ := tracks_single_key htr (ToLower name)
    (fun e he => by rw [(hmemseq e he).1]) hne
  have hp := timesFor_perm ToLower (ToLower name) hperm
  rw [hts, timesFor_seqEvents] at hp
  have hsum : t + ts.sum = (N : Int) * ((N : Int) + 1) / 2 := by
    rw [← sum_one_to_N_div, ← hp.sum_eq, List.sum_cons]
  have hlen : ts.length + 1 = N := by
    have := hp.length_eq
    simpa using this
  have ht : InRange t := by
    have hin : t ∈ timesFor ToLower (ToLower name) events := by rw [hts]; simp
    have hin' := (List.Perm.mem_iff (timesFor_perm ToLower (ToLower name) hperm)).mp hin
    rw [timesFor_seqEvents] at hin'
    simp only [List.mem_map, List.mem_range] at hin'
    obtain ⟨i, hi, rfl⟩ := hin'
    unfold InRange
    omega
  rw [hrun, hdata, storedSum_eq_wrap t ts ht, hsum]
  have : ((ts.length : Int) + 1) = (N : Int) := by exact_mod_cast hlen
  rw [this]

theorem seqEvents_valid (name : String) (N : Nat) (hname : name ≠ "")
    {events : List Action} (hperm : events.Perm (seqEvents name N)) :
    ∀ e ∈ events, e.Action ≠ "" ∧ 0 ≤ e.Time := by
  intro e he
  have := (List.Perm.mem_iff hperm).mp he
  simp only [seqEvents, List.mem_map, List.mem_range] at this
  obtain ⟨i, _, rfl⟩ := this
  exact ⟨hname, by simp only; omega⟩

theorem store_of_seqEvents (Unmarshal : String → Except String Action)
    (ToLower : String → String) (inputs : List String) (events : List Action)
    (name : String) (N : Nat) (hN : 1 ≤ N) (hbound : (N : Int) < 2 ^ 63)
    (hname : name ≠ "") (hdecode : inputs.map Unmarshal = events.map Except.ok)
    (hperm : events.Perm (seqEvents name N)) :
    addActions Unmarshal ToLower emptyStore inputs =
      some [(ToLower name, [wrap64 ((N : Int) * ((N : Int) + 1) / 2), wrap64 (N : Int)])] := by
  rw [addActions_eq_processAll,
    accepted_of_valid Unmarshal inputs events hdecode (seqEvents_valid name N hname hperm)]
  exact processAll_seqEvents ToLower events name N hN hbound hperm

theorem triangle_bound (N : Nat) (h : N < 2 ^ 32) :
    (N : Int) * ((N : Int) + 1) / 2 < 2 ^ 63 := by
  have h1 : N * (N + 1) ≤ (2 ^ 32 - 1) * 2 ^ 32 :=
    Nat.mul_le_mul (by omega) (by omega)
  have h2 : ((N * (N + 1) : Nat) : Int) ≤ (((2 ^ 32 - 1) * 2 ^ 32 : Nat) : Int) := by
    exact_mod_cast h1
  have h3 : ((N * (N + 1) : Nat) : Int) = (N : Int) * ((N : Int) + 1) := by push_cast; ring
  rw [h3] at h2
  norm_num at h2
  omega

/-- C2 (amended): for `1 ≤ N < 2^32`, the `N` events of one name with the
durations `1..N`, recorded from the empty store in any order, leave a single
entry, and `GetStats` builds exactly one record, with the average
`(N * (N + 1) / 2) / N`. -/
theorem GetStats_durations_one_to_N (Unmarshal : String → Except String Action)
    (ToLower : String → String) (inputs : List String) (events : List Action)
    (name : String) (N : Nat) (hN : 1 ≤ N) (hbound : N < 2 ^ 32) (hname : name ≠ "")
    (hdecode : inputs.map Unmarshal = events.map Except.ok)
    (hperm : events.Perm (seqEvents name N)) :
    ∃ data, addActions Unmarshal ToLower emptyStore inputs = some data ∧
      ∀ iter, RangeOrder data iter →
        avgStructs iter =
            some [AvgAction.mk (ToLower name) ((N : Int) * ((N : Int) + 1) / 2 / (N : Int))] ∧
          ∀ Marshal, GetStats Marshal iter =
            some (Marshal
              [AvgAction.mk (ToLower name) ((N : Int) * ((N : Int) + 1) / 2 / (N : Int))]) := by
  have hN63 : (N : Int) < 2 ^ 63 := by
    have : (N : Int) < 2 ^ 32 := by exact_mod_cast hbound
    omega
  have hstore := store_of_seqEvents Unmarshal ToLower inputs events name N hN hN63 hname
    hdecode hperm
  have htri := triangle_bound N hbound
  have hnn : 0 ≤ (N : Int) * ((N : Int) + 1) / 2 := by
    have : 0 ≤ (N : Int) * ((N : Int) + 1) := by positivity
    omega
  have hs : wrap64 ((N : Int) * ((N : Int) + 1) / 2) = (N : Int) * ((N : Int) + 1) / 2 := by
    apply wrap64_of_inRange
    unfold InRange; omega
  have hc : wrap64 (N : Int) = (N : Int) := by
    apply wrap64_of_inRange
    unfold InRange; omega
  rw [hs, hc] at hstore
  refine ⟨_, hstore, ?_⟩
  intro iter hiter
  have hi : iter = [(ToLower name, [(N : Int) * ((N : Int) + 1) / 2, (N : Int)])] :=
    List.perm_singleton.mp hiter
  have hNpos : (0 : Int) < (N : Int) := by omega
  have hN0 : (N : Int) ≠ 0 := by omega
  have havg : avgStructs iter =
      some [AvgAction.mk (ToLower name) ((N : Int) * ((N : Int) + 1) / 2 / (N : Int))] := by
    rw [hi]
    simp only [avgStructs, goDiv, hN0, if_false, Option.map_some']
    rw [goAvg_of_nonneg _ _ hnn htri hNpos]
  exact ⟨havg, fun Marshal => by simp [GetStats, havg]⟩

/-- C2, witness: the hundred inputs of `TestAddActionMultipleEntryConcurrent`
for "jump", recorded in reverse order, give the single record with the
average 50. -/
theorem GetStats_durations_one_to_N_witness :
    ∃ data, addActions (jsonUnmarshal parseRecord) asciiLower emptyStore
        (((List.range 100).map (fun (i : Nat) => jumpInput (i + 1))).reverse) = some data ∧
      ∀ iter, RangeOrder data iter →
        avgStructs iter = some [AvgAction.mk "jump" 50] ∧
          ∀ Marshal, GetStats Marshal iter = some (Marshal [AvgAction.mk "jump" 50]) := by
  have h := GetStats_durations_one_to_N (jsonUnmarshal parseRecord) asciiLower
    (((List.range 100).map (fun (i : Nat) => jumpInput (i + 1))).reverse)
    ((seqEvents "jump" 100).reverse) "jump" 100 (by decide) (by decide) (by decide)
    (by decide) (List.reverse_perm _)
  have e1 : asciiLower "jump" = "jump" := by decide
  have e2 : ((100 : Nat) : Int) * (((100 : Nat) : Int) + 1) / 2 / ((100 : Nat) : Int) = 50 := by
    decide
  rw [e1, e2] at h
  exact h

/-- C2, counterexample: with `N = 2^32` the sum `N * (N + 1) / 2` exceeds the
64-bit range; whatever inputs decode to the events with durations `1..N`,
the store ends with the wrapped sum and `GetStats` reports `-2147483647`,
whereas `(N * (N + 1) / 2) / N` is `2147483648`. -/
theorem GetStats_durations_overflow :
    ∃ data : Store,
      processAll asciiLower emptyStore (seqEvents "jump" 4294967296) = some data ∧
      (∀ (Unmarshal : String → Except String Action) (inputs : List String),
        inputs.map Unmarshal = (seqEvents "jump" 4294967296).map Except.ok →
        addActions Unmarshal asciiLower emptyStore inputs = some data) ∧
      avgStructs data = some [AvgAction.mk "jump" (-2147483647)] ∧
      ((4294967296 : Int) * (4294967296 + 1) / 2 / 4294967296) = 2147483648 := by
  have h := processAll_seqEvents asciiLower (seqEvents "jump" 4294967296)
    "jump" 4294967296 (by decide) (by decide) (List.Perm.refl _)
  have e1 : asciiLower "jump" = "jump" := by decide
  have e2 : wrap64 (((4294967296 : Nat) : Int) * (((4294967296 : Nat) : Int) + 1) / 2) =
      -9223372034707292160 := by decide
  have e3 : wrap64 ((4294967296 : Nat) : Int) = 4294967296 := by decide
  rw [e1, e2, e3] at h
  refine ⟨[("jump", [-9223372034707292160, 4294967296])], h, ?_, by decide, by decide⟩
  intro Unmarshal inputs hdecode
  rw [addActions_eq_processAll, accepted_of_valid Unmarshal inputs _ hdecode
    (seqEvents_valid "jump" 4294967296 (by decide) (List.Perm.refl _))]
  exact h

/-- C1, witness: the inputs of `TestAddActionMultipleEntry` and the key
"jump", whose durations 100, 200, 300 have the average 200. -/
theorem GetStats_reports_average_witness :
    ∃ data, addActions (jsonUnmarshal parseRecord) asciiLower emptyStore
        multipleEntryInputs = some data ∧
      ∀ iter, RangeOrder data iter →
        ∃ recs, avgStructs iter = some recs ∧
          (∀ Marshal, GetStats Marshal iter = some (Marshal recs)) ∧
          (∃ r ∈ recs, r.Action = "jump") ∧
          ∀ r ∈ recs, r.Action = "jump" → r.Avg = 200 := by
  have h := GetStats_reports_average (jsonUnmarshal parseRecord) asciiLower
    multipleEntryInputs multipleEntryEvents "jump" (by decide) (by decide) (by decide)
    (by decide) (by decide)
  have e : (timesFor asciiLower "jump" multipleEntryEvents).sum /
      ((timesFor asciiLower "jump" multipleEntryEvents).length : Int) = 200 := by decide
  rw [e] at h
  exact h

/-- C1, counterexample: two valid events for "jump" of duration `2^62` each.
Their durations sum to `2^63` and the average `sum / count` is `2^62`, but
the stored sum wraps to `-2^63` and `GetStats` builds the record with the
average `-2^62`. -/
theorem GetStats_average_overflow :
    addActions (jsonUnmarshal parseRecord) asciiLower emptyStore
        ["\x7b\"action\":\"jump\", \"time\":4611686018427387904\x7d",
         "\x7b\"action\":\"jump\", \"time\":4611686018427387904\x7d"] =
      some [("jump", [-9223372036854775808, 2])] ∧
    ["\x7b\"action\":\"jump\", \"time\":4611686018427387904\x7d",
     "\x7b\"action\":\"jump\", \"time\":4611686018427387904\x7d"].map
        (jsonUnmarshal parseRecord) =
      [Action.mk "jump" 4611686018427387904, Action.mk "jump" 4611686018427387904].map
        Except.ok ∧
    validateAction (Action.mk "jump" 4611686018427387904) = none ∧
    avgStructs [("jump", [-9223372036854775808, 2])] =
      some [AvgAction.mk "jump" (-4611686018427387904)] ∧
    (timesFor asciiLower "jump"
        [Action.mk "jump" 4611686018427387904, Action.mk "jump" 4611686018427387904]).sum /
      ((timesFor asciiLower "jump"
        [Action.mk "jump" 4611686018427387904,
         Action.mk "jump" 4611686018427387904]).length : Int) = 4611686018427387904 := by
  decide

/-- C4 (amended): two valid events whose names have the same lower-cased
form and whose durations satisfy `d1 + d2 < 2^63`, recorded from the empty
store, leave the single entry of the lower-cased name with sum `d1 + d2` and
count 2, and `GetStats` builds the single record with `(d1 + d2) / 2`. -/
theorem case_insensitive_aggregation (Unmarshal : String → Except String Action)
    (ToLower : String → String) (i1 i2 n1 n2 : String) (d1 d2 : Int)
    (h1 : Unmarshal i1 = .ok (Action.mk n1 d1)) (h2 : Unmarshal i2 = .ok (Action.mk n2 d2))
    (hn1 : n1 ≠ "") (hn2 : n2 ≠ "") (hlow : ToLower n1 = ToLower n2)
    (hd1 : 0 ≤ d1) (hd2 : 0 ≤ d2) (hsum : d1 + d2 < 2 ^ 63) :
    addActions Unmarshal ToLower emptyStore [i1, i2] =
        some [(ToLower n1, [d1 + d2, 2])] ∧
      ∀ iter, RangeOrder [(ToLower n1, [d1 + d2, 2])] iter →
        avgStructs iter = some [AvgAction.mk (ToLower n1) ((d1 + d2) / 2)] ∧
          ∀ Marshal, GetStats Marshal iter =
            some (Marshal [AvgAction.mk (ToLower n1) ((d1 + d2) / 2)]) := by
  have hw : wrap64 (d1 + d2) = d1 + d2 := by
    apply wrap64_of_inRange
    unfold InRange; omega
  have hv1 : validateAction (Action.mk n1 d1) = none := by
    simp [validateAction, hn1, not_lt.mpr hd1]
  have hv2 : validateAction (Action.mk n2 d2) = none := by
    simp [validateAction, hn2, not_lt.mpr hd2]
  have h2' : (2 : Int) = wrap64 (1 + 1) := by decide
  constructor
  · simp [addActions, AddAction, h1, h2, hv1, hv2, processAction, emptyStore, mapGet,
      mapSet, hlow, hw]
    decide
  · intro iter hiter
    have hi : iter = [(ToLower n1, [d1 + d2, 2])] := List.perm_singleton.mp hiter
    have havg : avgStructs iter = some [AvgAction.mk (ToLower n1) ((d1 + d2) / 2)] := by
      rw [hi]
      simp only [avgStructs, goDiv, Option.map_some']
      rw [if_neg (by decide), goAvg_of_nonneg _ _ (by omega) hsum (by decide)]
    exact ⟨havg, fun Marshal => by simp [GetStats, havg]⟩

/-- C4, witness: "Jump" with 100 and then "jump" with 201. -/
theorem case_insensitive_aggregation_witness :
    addActions (jsonUnmarshal parseRecord) asciiLower emptyStore
        ["\x7b\"action\":\"Jump\", \"time\":100\x7d",
         "\x7b\"action\":\"jump\", \"time\":201\x7d"] =
        some [(asciiLower "Jump", [100 + 201, 2])] ∧
      ∀ iter, RangeOrder [(asciiLower "Jump", [100 + 201, 2])] iter →
        avgStructs iter = some [AvgAction.mk (asciiLower "Jump") ((100 + 201) / 2)] ∧
          ∀ Marshal, GetStats Marshal iter =
            some (Marshal [AvgAction.mk (asciiLower "Jump") ((100 + 201) / 2)]) :=
  case_insensitive_aggregation (jsonUnmarshal parseRecord) asciiLower _ _ "Jump" "jump"
    100 201 (by decide) (by decide) (by decide) (by decide) (by decide) (by decide)
    (by decide) (by decide)

/-- C4, counterexample: "Jump" and then "jump", both with the duration
`2^62`. The single entry left has the sum `-2^63`, not `d1 + d2 = 2^63`, and
`GetStats` builds the average `-2^62`, not `(d1 + d2) / 2 = 2^62`. -/
theorem case_insensitive_overflow :
    asciiLower "Jump" = asciiLower "jump" ∧
    addActions (jsonUnmarshal parseRecord) asciiLower emptyStore
        ["\x7b\"action\":\"Jump\", \"time\":4611686018427387904\x7d",
         "\x7b\"action\":\"jump\", \"time\":4611686018427387904\x7d"] =
      some [("jump", [-9223372036854775808, 2])] ∧
    avgStructs [("jump", [-9223372036854775808, 2])] =
      some [AvgAction.mk "jump" (-4611686018427387904)] ∧
    (4611686018427387904 + 4611686018427387904 : Int) = 9223372036854775808 ∧
    ((4611686018427387904 + 4611686018427387904) / 2 : Int) = 4611686018427387904 := by
  decide

/-- C5: an input that decodes to an event with the empty name, whatever its
duration, makes `AddAction` return the error `errors.New` of the text
"Invaild action: " and leaves the store as it was. -/
theorem AddAction_empty_name (Unmarshal : String → Except String Action)
    (ToLower : String → String) (data : Store) (input : String) (t : Int)
    (hdecode : Unmarshal input = .ok (Action.mk "" t)) :
    AddAction Unmarshal ToLower data input =
      some (some (GoError.new "Invaild action: "), data) := by
  simp [AddAction, hdecode, validateAction]

/-- C5, witness: the input of `TestInvalidJsonActionEmpty` on a store that
holds an entry. -/
theorem AddAction_empty_name_witness :
    AddAction (jsonUnmarshal parseRecord) asciiLower [("jump", [100, 1])]
        "\x7b\"action\":\"\"\x7d" =
      some (some (GoError.new "Invaild action: "), [("jump", [100, 1])]) :=
  AddAction_empty_name (jsonUnmarshal parseRecord) asciiLower [("jump", [100, 1])]
    "\x7b\"action\":\"\"\x7d" 0 (by decide)

/-- C6: an input that decodes to an event with a non-empty name and a
duration `d < 0` makes `AddAction` return the error `errors.New` of the text
"Invaild time value: " followed by `d` in decimal, and leaves the store as it
was. -/
theorem AddAction_negative_time (Unmarshal : String → Except String Action)
    (ToLower : String → String) (data : Store) (input n : String) (d : Int)
    (hdecode : Unmarshal input = .ok (Action.mk n d)) (hn : n ≠ "") (hd : d < 0) :
    AddAction Unmarshal ToLower data input =
      some (some (GoError.new ("Invaild time value: " ++ toString d)), data) := by
  simp [AddAction, hdecode, validateAction, hn, hd]

/-- C6, witness: the input of `TestInvalidJsonTime` on a store that holds an
entry for the same key; the error text is "Invaild time value: -100". -/
theorem AddAction_negative_time_witness :
    AddAction (jsonUnmarshal parseRecord) asciiLower [("jump", [100, 1])]
        "\x7b\"action\":\"jump\", \"time\":-100\x7d" =
      some (some (GoError.new "Invaild time value: -100"), [("jump", [100, 1])]) := by
  have h := AddAction_negative_time (jsonUnmarshal parseRecord) asciiLower
    [("jump", [100, 1])] "\x7b\"action\":\"jump\", \"time\":-100\x7d" "jump" (-100)
    (by decide) (by decide) (by decide)
  have e : "Invaild time value: " ++ toString (-100 : Int) = "Invaild time value: -100" := by
    decide
  rw [e] at h
  exact h

theorem decodeFields_error_of_mem (fields : List (String × JValue)) :
    ∀ (acc : Action) (field : String × JValue), field ∈ fields →
      (∀ a, ∃ msg, decodeField a field = .error msg) →
      ∃ msg, decodeFields acc fields = .error msg := by
  induction fields with
  | nil => intro acc field h; simp at h
  | cons f rest ih =>
    intro acc field hmem hbad
    cases hf : decodeField acc f with
    | error msg => exact ⟨msg, by simp [decodeFields, hf]⟩
    | ok acc' =>
      rcases List.mem_cons.mp hmem with e | e
      · subst e
        obtain ⟨msg, hmsg⟩ := hbad acc
        rw [hmsg] at hf
        cases hf
      · obtain ⟨msg, hmsg⟩ := ih acc' field e hbad
        exact ⟨msg, by simp [decodeFields, hf, hmsg]⟩

/-- C7: whatever the structural reader, an input among whose fields is a
"time" holding a number with a fraction part, or a whole number outside the
signed 64-bit range, makes `AddAction` return a decode error and leaves the
store as it was. -/
theorem AddAction_bad_time_decode_error (parse : String → Option (List (String × JValue)))
    (ToLower : String → String) (data : Store) (input : String)
    (fields : List (String × JValue)) (n : NumLit)
    (hparse : parse input = some fields)
    (hmem : ("time", JValue.num n) ∈ fields)
    (hbad : n.fraction = true ∨ ¬ InRange n.value) :
    ∃ msg, AddAction (jsonUnmarshal parse) ToLower data input =
      some (some (GoError.decode msg), data) := by
  have hfield : ∀ a, ∃ msg, decodeField a ("time", JValue.num n) = .error msg := by
    intro a
    have hne : ¬ ("time" = "action") := by decide
    rcases hbad with hfr | hr
    · exact ⟨"decode: field time is not a whole number in the 64-bit range",
        by simp [decodeField, hfr]⟩
    · exact ⟨"decode: field time is not a whole number in the 64-bit range",
        by simp [decodeField, hr]⟩
  obtain ⟨msg, hmsg⟩ := decodeFields_error_of_mem fields (Action.mk "" 0) _ hmem hfield
  exact ⟨msg, by simp [AddAction, jsonUnmarshal, hparse, hmsg]⟩

/-- C7, witness: the inputs of `TestInvalidJsonTimeDouble` (time 1.123) and
of `TestInvalidJsonTimeLimit` (time 922337203685477580900) on a store that
holds an entry. -/
theorem AddAction_bad_time_decode_error_witness :
    (∃ msg, AddAction (jsonUnmarshal parseRecord) asciiLower [("jump", [100, 1])]
        "\x7b\"action\":\"jump\", \"time\":1.123\x7d" =
      some (some (GoError.decode msg), [("jump", [100, 1])])) ∧
    (∃ msg, AddAction (jsonUnmarshal parseRecord) asciiLower [("jump", [100, 1])]
        "\x7b\"action\":\"jump\", \"time\":922337203685477580900\x7d" =
      some (some (GoError.decode msg), [("jump", [100, 1])])) :=
  ⟨AddAction_bad_time_decode_error parseRecord asciiLower [("jump", [100, 1])]
      "\x7b\"action\":\"jump\", \"time\":1.123\x7d"
      [("action", JValue.str "jump"), ("time", JValue.num (NumLit.mk false 1 true false))]
      (NumLit.mk false 1 true false) (by decide) (by decide) (by decide),
   AddAction_bad_time_decode_error parseRecord asciiLower [("jump", [100, 1])]
      "\x7b\"action\":\"jump\", \"time\":922337203685477580900\x7d"
      [("action", JValue.str "jump"),
       ("time", JValue.num (NumLit.mk false 922337203685477580900 false false))]
      (NumLit.mk false 922337203685477580900 false false) (by decide) (by decide)
      (by decide)⟩

/-- C8 (amended): for a valid event `(n, d)`, `AddAction` returns no error and
the store after the call is the store before it with the entry of the one key
`ToLower n` set once: to `[d, 1]` when the key was absent, and for an entry
`[s, c]` to `[wrap64 (s + d), wrap64 (c + 1)]`, which is `[s + d, c + 1]`
whenever both values lie in the signed 64-bit range. -/
theorem AddAction_updates_entry (Unmarshal : String → Except String Action)
    (ToLower : String → String) (data : Store) (input n : String) (d : Int)
    (hdecode : Unmarshal input = .ok (Action.mk n d)) (hn : n ≠ "") (hd : 0 ≤ d) :
    (mapGet data (ToLower n) = none →
      AddAction Unmarshal ToLower data input =
          some (none, mapSet data (ToLower n) [d, 1]) ∧
        mapGet (mapSet data (ToLower n) [d, 1]) (ToLower n) = some [d, 1]) ∧
    (∀ s c, mapGet data (ToLower n) = some [s, c] →
      AddAction Unmarshal ToLower data input =
          some (none, mapSet data (ToLower n) [wrap64 (s + d), wrap64 (c + 1)]) ∧
        mapGet (mapSet data (ToLower n) [wrap64 (s + d), wrap64 (c + 1)]) (ToLower n) =
          some [wrap64 (s + d), wrap64 (c + 1)] ∧
        (InRange (s + d) → InRange (c + 1) →
          mapGet (mapSet data (ToLower n) [wrap64 (s + d), wrap64 (c + 1)]) (ToLower n) =
            some [s + d, c + 1])) := by
  have hv : validateAction (Action.mk n d) = none := by
    simp [validateAction, hn, not_lt.mpr hd]
  constructor
  · intro habs
    exact ⟨by simp [AddAction, hdecode, hv, processAction, habs], mapGet_mapSet_same _ _ _⟩
  · intro s c hpres
    refine ⟨by simp [AddAction, hdecode, hv, processAction, hpres],
      mapGet_mapSet_same _ _ _, ?_⟩
    intro h1 h2
    rw [mapGet_mapSet_same, wrap64_of_inRange h1, wrap64_of_inRange h2]

/-- C8, witness: "Jump" with 200 on a store holding `[100, 1]` for "jump"
and nothing for "run". -/
theorem AddAction_updates_entry_witness :
    (mapGet [("run", [75, 1]), ("jump", [100, 1])] (asciiLower "Jump") = some [100, 1]) ∧
    AddAction (jsonUnmarshal parseRecord) asciiLower [("run", [75, 1]), ("jump", [100, 1])]
        "\x7b\"action\":\"Jump\", \"time\":200\x7d" =
      some (none, mapSet [("run", [75, 1]), ("jump", [100, 1])] (asciiLower "Jump")
        [wrap64 (100 + 200), wrap64 (1 + 1)]) ∧
    mapGet (mapSet [("run", [75, 1]), ("jump", [100, 1])] (asciiLower "Jump")
        [wrap64 (100 + 200), wrap64 (1 + 1)]) (asciiLower "Jump") = some [100 + 200, 1 + 1] :=
  have h := (AddAction_updates_entry (jsonUnmarshal parseRecord) asciiLower
    [("run", [75, 1]), ("jump", [100, 1])] "\x7b\"action\":\"Jump\", \"time\":200\x7d"
    "Jump" 200 (by decide) (by decide) (by decide)).2 100 1 (by decide)
  ⟨by decide, h.1, h.2.2 (by decide) (by decide)⟩

/-- C8, counterexample: the store holds `[2^63 - 1, 1]` for "jump" and the
valid event has the duration 1. `AddAction` succeeds and the entry becomes
`[-2^63, 2]`, whereas `s + d` is `2^63`. -/
theorem AddAction_update_overflow :
    mapGet [("jump", [9223372036854775807, 1])] (asciiLower "jump") =
      some [9223372036854775807, 1] ∧
    jsonUnmarshal parseRecord "\x7b\"action\":\"jump\", \"time\":1\x7d" =
      .ok (Action.mk "jump" 1) ∧
    AddAction (jsonUnmarshal parseRecord) asciiLower [("jump", [9223372036854775807, 1])]
        "\x7b\"action\":\"jump\", \"time\":1\x7d" =
      some (none, [("jump", [-9223372036854775808, 2])]) ∧
    (9223372036854775807 + 1 : Int) ≠ -9223372036854775808 := by
  decide

/-- The store left by `n ≥ 1` events of one name, all of duration 0. -/
theorem processAll_replicate_zero (ToLower : String → String) (name : String) (n : Nat)
    (hn : 1 ≤ n) :
    processAll ToLower emptyStore (List.replicate n (Action.mk name 0)) =
      some [(ToLower name, [0, wrap64 (n : Int)])] := by
  obtain ⟨data, hrun, htr⟩ := tracks_processAll ToLower
    (List.replicate n (Action.mk name 0)) emptyStore [] (tracks_empty ToLower)
  rw [List.nil_append] at htr
  have hall : ∀ e ∈ List.replicate n (Action.mk name 0), ToLower e.Action = ToLower name := by
    intro e he
    rw [(List.mem_replicate.mp he).2]
  have hne : List.replicate n (Action.mk name 0) ≠ [] := by
    intro h
    have := congrArg List.length h
    simp at this
    omega
  obtain ⟨t, ts, hts, hdata⟩ := tracks_single_key htr (ToLower name) hall hne
  have hfull : timesFor ToLower (ToLower name) (List.replicate n (Action.mk name 0)) =
      List.replicate n 0 := by
    simp only [timesFor]
    rw [List.filter_eq_self.mpr (fun e he => by simp [hall e he])]
    simp
  rw [hfull] at hts
  have hlen : ts.length + 1 = n := by
    have := congrArg List.length hts
    simp at this
    omega
  have ht : t = 0 := by
    have : t ∈ List.replicate n (0 : Int) := by rw [hts]; simp
    exact (List.mem_replicate.mp this).2
  have hsum : t + ts.sum = 0 := by
    have := congrArg List.sum hts
    simp at this
    omega
  have hr : InRange t := by rw [ht]; decide
  rw [hrun, hdata, storedSum_eq_wrap t ts hr, hsum]
  have hc : ((ts.length : Int) + 1) = (n : Int) := by exact_mod_cast hlen
  rw [hc]
  rfl

theorem addActions_replicate_zero (Unmarshal : String → Except String Action)
    (ToLower : String → String) (input name : String) (n : Nat) (hn : 1 ≤ n)
    (hname : name ≠ "") (hdecode : Unmarshal input = .ok (Action.mk name 0)) :
    addActions Unmarshal ToLower emptyStore (List.replicate n input) =
      some [(ToLower name, [0, wrap64 (n : Int)])] := by
  rw [addActions_eq_processAll,
    accepted_of_valid Unmarshal (List.replicate n input) (List.replicate n (Action.mk name 0))
      (by simp [List.map_replicate, hdecode])
      (fun e he => by
        rw [(List.mem_replicate.mp he).2]
        exact ⟨hname, le_refl _⟩)]
  exact processAll_replicate_zero ToLower name n hn

/-- C9 (amended): after fewer than `2^63` calls of `AddAction` from the empty
store, failing calls included, no call has panicked, every entry of the store
has exactly two elements with a count of at least 1, and `GetStats` builds
its records without a division by zero, whatever order `range` visits the
map in. -/
theorem count_pos_of_reachable (Unmarshal : String → Except String Action)
    (ToLower : String → String) (inputs : List String)
    (hlen : (inputs.length : Int) < 2 ^ 63) :
    ∃ data, addActions Unmarshal ToLower emptyStore inputs = some data ∧
      (∀ k val, (k, val) ∈ data → ∃ s c, val = [s, c] ∧ 1 ≤ c) ∧
      ∀ iter, RangeOrder data iter → ∃ recs, avgStructs iter = some recs := by
  obtain ⟨data, hrun, htr⟩ := tracks_addActions Unmarshal ToLower inputs
  have hle := accepted_length_le Unmarshal inputs
  have hlen' : ((accepted Unmarshal inputs).length : Int) < 2 ^ 63 := by omega
  refine ⟨data, hrun, ?_, ?_⟩
  · intro k val hmem
    obtain ⟨t, ts, _, hv⟩ := tracks_entry_count htr hlen' hmem
    exact ⟨storedSum t ts, (ts.length : Int) + 1, hv, by omega⟩
  · intro iter hiter
    exact ⟨_, tracks_avgStructs htr hlen' hiter⟩

/-- C9, witness: three calls, one of them failing. -/
theorem count_pos_of_reachable_witness :
    ∃ data, addActions (jsonUnmarshal parseRecord) asciiLower emptyStore
        ["\x7b\"action\":\"jump\", \"time\":100\x7d",
         "\x7b\"action\":\"jump\", \"time\":-100\x7d",
         "\x7b\"action\":\"run\", \"time\":0\x7d"] = some data ∧
      (∀ k val, (k, val) ∈ data → ∃ s c, val = [s, c] ∧ 1 ≤ c) ∧
      ∀ iter, RangeOrder data iter → ∃ recs, avgStructs iter = some recs :=
  count_pos_of_reachable (jsonUnmarshal parseRecord) asciiLower
    ["\x7b\"action\":\"jump\", \"time\":100\x7d",
     "\x7b\"action\":\"jump\", \"time\":-100\x7d",
     "\x7b\"action\":\"run\", \"time\":0\x7d"] (by decide)

/-- C9, counterexample: the valid input for "jump" with time 0, recorded
`2^63` times from the empty store, leaves the count `-2^63`; recorded `2^64`
times it leaves the count 0, and `GetStats` then panics on the division. -/
theorem count_wraps_counterexample :
    addActions (jsonUnmarshal parseRecord) asciiLower emptyStore
        (List.replicate 9223372036854775808 "\x7b\"action\":\"jump\", \"time\":0\x7d") =
      some [("jump", [0, -9223372036854775808])] ∧
    addActions (jsonUnmarshal parseRecord) asciiLower emptyStore
        (List.replicate 18446744073709551616 "\x7b\"action\":\"jump\", \"time\":0\x7d") =
      some [("jump", [0, 0])] ∧
    avgStructs [("jump", [0, 0])] = none ∧
    (∀ Marshal : AvgActions → String, GetStats Marshal [("jump", [0, 0])] = none) := by
  have hd : jsonUnmarshal parseRecord "\x7b\"action\":\"jump\", \"time\":0\x7d" =
      .ok (Action.mk "jump" 0) := by decide
  have e1 : asciiLower "jump" = "jump" := by decide
  have h1 := addActions_replicate_zero (jsonUnmarshal parseRecord) asciiLower
    "\x7b\"action\":\"jump\", \"time\":0\x7d" "jump" 9223372036854775808 (by decide)
    (by decide) hd
  have h2 := addActions_replicate_zero (jsonUnmarshal parseRecord) asciiLower
    "\x7b\"action\":\"jump\", \"time\":0\x7d" "jump" 18446744073709551616 (by decide)
    (by decide) hd
  have w1 : wrap64 ((9223372036854775808 : Nat) : Int) = -9223372036854775808 := by decide
  have w2 : wrap64 ((18446744073709551616 : Nat) : Int) = 0 := by decide
  rw [e1, w1] at h1
  rw [e1, w2] at h2
  exact ⟨h1, h2, by decide, fun Marshal => by simp [GetStats, avgStructs, goDiv]⟩

/-- C10 (amended): after fewer than `2^63` calls of `AddAction` from the empty
store, if for every accepted event the durations accepted for its key sum to
less than `2^63`, then every entry holds exactly that sum, which is not
negative, and every average `GetStats` builds is not negative. -/
theorem sum_nonneg_of_reachable (Unmarshal : String → Except String Action)
    (ToLower : String → String) (inputs : List String)
    (hlen : (inputs.length : Int) < 2 ^ 63)
    (hsum : ∀ e ∈ accepted Unmarshal inputs,
      (timesFor ToLower (ToLower e.Action) (accepted Unmarshal inputs)).sum < 2 ^ 63) :
    ∃ data, addActions Unmarshal ToLower emptyStore inputs = some data ∧
      (∀ k val, (k, val) ∈ data → ∃ s c, val = [s, c] ∧ 0 ≤ s ∧
        s = (timesFor ToLower k (accepted Unmarshal inputs)).sum) ∧
      ∀ iter, RangeOrder data iter →
        ∃ recs, avgStructs iter = some recs ∧ ∀ r ∈ recs, 0 ≤ r.Avg := by
  obtain ⟨data, hrun, htr⟩ := tracks_addActions Unmarshal ToLower inputs
  have hle := accepted_length_le Unmarshal inputs
  have hlen' : ((accepted Unmarshal inputs).length : Int) < 2 ^ 63 := by omega
  have hnn := accepted_time_nonneg Unmarshal inputs
  have hentry : ∀ k val, (k, val) ∈ data → ∃ s c, val = [s, c] ∧ 0 ≤ s ∧ s < 2 ^ 63 ∧
      0 < c ∧ s = (timesFor ToLower k (accepted Unmarshal inputs)).sum := by
    intro k val hmem
    obtain ⟨t, ts, hts, hv⟩ := tracks_entry_count htr hlen' hmem
    have hin : t ∈ timesFor ToLower k (accepted Unmarshal inputs) := by rw [hts]; simp
    simp only [timesFor, List.mem_map, List.mem_filter, decide_eq_true_eq] at hin
    obtain ⟨e, ⟨he, hek⟩, _⟩ := hin
    have hb := hsum e he
    rw [hek, hts, List.sum_cons] at hb
    have hpos := timesFor_nonneg ToLower k (accepted Unmarshal inputs) hnn
    rw [hts] at hpos
    have ht0 : 0 ≤ t := hpos t (List.mem_cons_self _ _)
    have hts0 : ∀ x ∈ ts, 0 ≤ x := fun x hx => hpos x (List.mem_cons_of_mem _ hx)
    have hs0 : 0 ≤ ts.sum := List.sum_nonneg hts0
    refine ⟨t + ts.sum, (ts.length : Int) + 1, ?_, by omega, hb, by omega, ?_⟩
    · rw [hv, storedSum_eq_sum t ts ht0 hts0 hb]
    · rw [hts, List.sum_cons]
  refine ⟨data, hrun, ?_, ?_⟩
  · intro k val hmem
    obtain ⟨s, c, hv, h0, _, _, hs⟩ := hentry k val hmem
    exact ⟨s, c, hv, h0, hs⟩
  · intro iter hiter
    refine ⟨_, tracks_avgStructs htr hlen' hiter, ?_⟩
    intro r hr
    obtain ⟨p, hp, rfl⟩ := List.mem_map.mp hr
    obtain ⟨k, val⟩ := p
    have hmem : (k, val) ∈ data := (List.Perm.mem_iff hiter).mp hp
    obtain ⟨s, c, hv, h0, h1, hc, _⟩ := hentry k val hmem
    subst hv
    simp only [avgOf, List.getD_cons_zero, List.getD_cons_succ]
    rw [goAvg_of_nonneg s c h0 h1 hc]
    exact Int.ediv_nonneg h0 (le_of_lt hc)

/-- C10, witness: the inputs of `TestAddActionMultipleEntry` followed by a
rejected negative duration. -/
theorem sum_nonneg_of_reachable_witness :
    ∃ data, addActions (jsonUnmarshal parseRecord) asciiLower emptyStore
        (multipleEntryInputs ++ ["\x7b\"action\":\"run\", \"time\":-5\x7d"]) = some data ∧
      (∀ k val, (k, val) ∈ data → ∃ s c, val = [s, c] ∧ 0 ≤ s ∧
        s = (timesFor asciiLower k (accepted (jsonUnmarshal parseRecord)
          (multipleEntryInputs ++ ["\x7b\"action\":\"run\", \"time\":-5\x7d"]))).sum) ∧
      ∀ iter, RangeOrder data iter →
        ∃ recs, avgStructs iter = some recs ∧ ∀ r ∈ recs, 0 ≤ r.Avg :=
  sum_nonneg_of_reachable (jsonUnmarshal parseRecord) asciiLower
    (multipleEntryInputs ++ ["\x7b\"action\":\"run\", \"time\":-5\x7d"]) (by decide)
    (by decide)

/-- C10, counterexample: two valid events for "run", with the durations
`2^63 - 1` and 1. The stored sum is `-2^63` and `GetStats` builds the average
`-2^62`: both are negative. -/
theorem sum_negative_counterexample :
    addActions (jsonUnmarshal parseRecord) asciiLower emptyStore
        ["\x7b\"action\":\"run\", \"time\":9223372036854775807\x7d",
         "\x7b\"action\":\"run\", \"time\":1\x7d"] =
      some [("run", [-9223372036854775808, 2])] ∧
    accepted (jsonUnmarshal parseRecord)
        ["\x7b\"action\":\"run\", \"time\":9223372036854775807\x7d",
         "\x7b\"action\":\"run\", \"time\":1\x7d"] =
      [Action.mk "run" 9223372036854775807, Action.mk "run" 1] ∧
    avgStructs [("run", [-9223372036854775808, 2])] =
      some [AvgAction.mk "run" (-4611686018427387904)] ∧
    (-9223372036854775808 : Int) < 0 ∧ (-4611686018427387904 : Int) < 0 := by
  decide

/-! ## The report -/

theorem avgStructs_of_entryOk (iter : Store) (h : ∀ p ∈ iter, EntryOk p) :
    avgStructs iter = some (iter.map avgOf) := by
  induction iter with
  | nil => rfl
  | cons p rest ih =>
    obtain ⟨k, v⟩ := p
    obtain ⟨v0, v1, more, hv, hc⟩ := h (k, v) (List.mem_cons_self _ _)
    simp only at hv
    subst hv
    have ih' := ih (fun q hq => h q (List.mem_cons_of_mem _ hq))
    simp [avgStructs, goDiv, hc, ih', avgOf]

theorem entryOk_of_avgStructs (iter : Store) :
    ∀ recs, avgStructs iter = some recs → ∀ p ∈ iter, EntryOk p := by
  induction iter with
  | nil => intro recs _ p hp; simp at hp
  | cons q rest ih =>
    intro recs h p hp
    obtain ⟨k, v⟩ := q
    match v, h with
    | v0 :: v1 :: more, h =>
      by_cases hc : v1 = 0
      · simp [avgStructs, goDiv, hc] at h
      · simp only [avgStructs, goDiv, hc, if_false] at h
        cases hr : avgStructs rest with
        | none => simp [hr] at h
        | some rs =>
          rcases List.mem_cons.mp hp with e | e
          · subst e
            exact ⟨v0, v1, more, rfl, hc⟩
          · exact ih rs hr p e
    | [], h => simp [avgStructs] at h
    | [_], h => simp [avgStructs] at h

theorem avgStructs_eq_some_iff (iter : Store) (recs : AvgActions) :
    avgStructs iter = some recs ↔ (∀ p ∈ iter, EntryOk p) ∧ recs = iter.map avgOf := by
  constructor
  · intro h
    have hok := entryOk_of_avgStructs iter recs h
    rw [avgStructs_of_entryOk iter hok] at h
    exact ⟨hok, (Option.some.inj h).symm⟩
  · rintro ⟨hok, rfl⟩
    exact avgStructs_of_entryOk iter hok

theorem avgStructs_perm {iter1 iter2 : Store} (hp : iter1.Perm iter2) :
    (avgStructs iter1 = none ↔ avgStructs iter2 = none) ∧
      ∀ r1 r2, avgStructs iter1 = some r1 → avgStructs iter2 = some r2 → r1.Perm r2 := by
  have hsome : ∀ {a b : Store}, a.Perm b → ∀ r, avgStructs a = some r →
      avgStructs b = some (b.map avgOf) := by
    intro a b hab r hr
    have hok := entryOk_of_avgStructs a r hr
    exact avgStructs_of_entryOk b (fun p hp' => hok p ((List.Perm.mem_iff hab).mpr hp'))
  constructor
  · constructor
    · intro h1
      cases h2 : avgStructs iter2 with
      | none => rfl
      | some r =>
        rw [hsome hp.symm r h2] at h1
        cases h1
    · intro h2
      cases h1 : avgStructs iter1 with
      | none => rfl
      | some r =>
        rw [hsome hp r h1] at h2
        cases h2
  · intro r1 r2 h1 h2
    rw [(avgStructs_eq_some_iff iter1 r1).mp h1 |>.2, (avgStructs_eq_some_iff iter2 r2).mp h2 |>.2]
    exact hp.map avgOf

theorem perm_of_length_le_one {α : Type} {l m : List α} (h : l.Perm m)
    (hlen : m.length ≤ 1) : l = m := by
  match m, hlen with
  | [], _ => exact List.Perm.eq_nil h
  | [a], _ => exact List.perm_singleton.mp h

/-- C11 (amended): two calls of `GetStats` on the same store, whatever orders
`range` visits the map in, either both panic or build the same records up to
their order; on a store with at most one key the two outputs are the same
string. -/
theorem GetStats_same_records (data iter1 iter2 : Store)
    (h1 : RangeOrder data iter1) (h2 : RangeOrder data iter2) :
    (avgStructs iter1 = none ↔ avgStructs iter2 = none) ∧
      (∀ r1 r2, avgStructs iter1 = some r1 → avgStructs iter2 = some r2 → r1.Perm r2) ∧
      (data.length ≤ 1 →
        ∀ Marshal : AvgActions → String, GetStats Marshal iter1 = GetStats Marshal iter2) := by
  have hp : iter1.Perm iter2 := List.Perm.trans h1 (List.Perm.symm h2)
  refine ⟨(avgStructs_perm hp).1, (avgStructs_perm hp).2, ?_⟩
  intro hlen Marshal
  rw [perm_of_length_le_one h1 hlen, perm_of_length_le_one h2 hlen]

/-- C11, witness: the store of `TestAddActionMultipleEntry` visited in its two
orders. -/
theorem GetStats_same_records_witness :
    (avgStructs [("jump", [600, 3]), ("run", [75, 1])] = none ↔
        avgStructs [("run", [75, 1]), ("jump", [600, 3])] = none) ∧
      (∀ r1 r2, avgStructs [("jump", [600, 3]), ("run", [75, 1])] = some r1 →
        avgStructs [("run", [75, 1]), ("jump", [600, 3])] = some r2 → r1.Perm r2) ∧
      (([("jump", [600, 3]), ("run", [75, 1])] : Store).length ≤ 1 →
        ∀ Marshal : AvgActions → String,
          GetStats Marshal [("jump", [600, 3]), ("run", [75, 1])] =
            GetStats Marshal [("run", [75, 1]), ("jump", [600, 3])]) :=
  GetStats_same_records [("jump", [600, 3]), ("run", [75, 1])]
    [("jump", [600, 3]), ("run", [75, 1])] [("run", [75, 1]), ("jump", [600, 3])]
    (List.Perm.refl _) (List.Perm.swap _ _ _)

/-- C11, counterexample: the store left by the inputs of
`TestAddActionMultipleEntry` holds two keys; `range` may visit "jump" first in
one call and "run" first in the next, and the two serialized outputs
differ. -/
theorem GetStats_order_counterexample :
    addActions (jsonUnmarshal parseRecord) asciiLower emptyStore multipleEntryInputs =
      some [("jump", [600, 3]), ("run", [75, 1])] ∧
    RangeOrder [("jump", [600, 3]), ("run", [75, 1])]
      [("jump", [600, 3]), ("run", [75, 1])] ∧
    RangeOrder [("jump", [600, 3]), ("run", [75, 1])]
      [("run", [75, 1]), ("jump", [600, 3])] ∧
    GetStats jsonMarshal [("jump", [600, 3]), ("run", [75, 1])] =
      some "[\x7b\"action\":\"jump\",\"avg\":200\x7d,\x7b\"action\":\"run\",\"avg\":75\x7d]" ∧
    GetStats jsonMarshal [("run", [75, 1]), ("jump", [600, 3])] =
      some "[\x7b\"action\":\"run\",\"avg\":75\x7d,\x7b\"action\":\"jump\",\"avg\":200\x7d]" ∧
    GetStats jsonMarshal [("jump", [600, 3]), ("run", [75, 1])] ≠
      GetStats jsonMarshal [("run", [75, 1]), ("jump", [600, 3])] :=
  ⟨by decide, List.Perm.refl _, List.Perm.swap _ _ _, by decide, by decide, by decide⟩

theorem map_action_avgOf (iter : Store) :
    (iter.map avgOf).map (fun r => r.Action) = keys iter := by
  simp [keys, avgOf, List.map_map, Function.comp_def]

/-- C12: on a store with distinct keys (every Go map), whatever order `range`
visits the map in, a report built by `GetStats` has the keys of the store as
the actions of its records, each once, and as many records as the store has
keys; and `GetStats` does build a report when no entry makes the loop body
panic. -/
theorem GetStats_one_record_per_key (data iter : Store)
    (hnd : (keys data).Nodup) (hiter : RangeOrder data iter) :
    (∀ recs, avgStructs iter = some recs →
      (∀ k, k ∈ keys data ↔ ∃ r ∈ recs, r.Action = k) ∧
      (recs.map (fun r => r.Action)).Nodup ∧
      (recs.map (fun r => r.Action)).Perm (keys data) ∧
      recs.length = (keys data).length) ∧
    ((∀ p ∈ data, EntryOk p) →
      ∃ recs, avgStructs iter = some recs ∧
        ∀ Marshal : AvgActions → String, GetStats Marshal iter = some (Marshal recs)) := by
  have hkeys : (keys iter).Perm (keys data) := hiter.map Prod.fst
  constructor
  · intro recs hrecs
    obtain ⟨_, rfl⟩ := (avgStructs_eq_some_iff iter recs).mp hrecs
    rw [map_action_avgOf]
    refine ⟨?_, (List.Perm.nodup_iff hkeys).mpr hnd, hkeys, ?_⟩
    · intro k
      rw [← List.Perm.mem_iff hkeys, ← map_action_avgOf iter, List.mem_map]
    · rw [List.length_map, ← hkeys.length_eq]
      simp [keys]
  · intro hok
    have h := avgStructs_of_entryOk iter
      (fun p hp => hok p ((List.Perm.mem_iff hiter).mp hp))
    exact ⟨_, h, fun Marshal => by simp [GetStats, h]⟩

/-- C12, witness: the store of `TestAddActionMultipleEntry`, visited with
"run" first. -/
theorem GetStats_one_record_per_key_witness :
    (∀ recs, avgStructs [("run", [75, 1]), ("jump", [600, 3])] = some recs →
      (∀ k, k ∈ keys [("jump", [600, 3]), ("run", [75, 1])] ↔ ∃ r ∈ recs, r.Action = k) ∧
      (recs.map (fun r => r.Action)).Nodup ∧
      (recs.map (fun r => r.Action)).Perm (keys [("jump", [600, 3]), ("run", [75, 1])]) ∧
      recs.length = (keys [("jump", [600, 3]), ("run", [75, 1])]).length) ∧
    ((∀ p ∈ ([("jump", [600, 3]), ("run", [75, 1])] : Store), EntryOk p) →
      ∃ recs, avgStructs [("run", [75, 1]), ("jump", [600, 3])] = some recs ∧
        ∀ Marshal : AvgActions → String,
          GetStats Marshal [("run", [75, 1]), ("jump", [600, 3])] = some (Marshal recs)) :=
  GetStats_one_record_per_key [("jump", [600, 3]), ("run", [75, 1])]
    [("run", [75, 1]), ("jump", [600, 3])] (by decide) (List.Perm.swap _ _ _)

/-- C14: on the empty store `GetStats` does not panic and, with the encoding
of the specification, returns the empty array "[]". -/
theorem GetStats_empty_store (iter : Store) (hiter : RangeOrder emptyStore iter) :
    avgStructs iter = some [] ∧ GetStats jsonMarshal iter = some "[]" := by
  have hi : iter = [] := List.Perm.eq_nil hiter
  subst hi
  exact ⟨rfl, by decide⟩

/-- C14, witness: the only order in which the empty map can be visited. -/
theorem GetStats_empty_store_witness :
    avgStructs emptyStore = some [] ∧ GetStats jsonMarshal emptyStore = some "[]" :=
  GetStats_empty_store emptyStore (List.Perm.refl _)

/-- C15: one valid event `(n, d)`, with `d` a Go `int`, recorded on the empty
store: `AddAction` returns no error, and `GetStats` then builds exactly the
one record of the lower-cased name with the average `d` and returns its
encoding. -/
theorem single_event_report (Unmarshal : String → Except String Action)
    (ToLower : String → String) (input n : String) (d : Int)
    (hdecode : Unmarshal input = .ok (Action.mk n d)) (hn : n ≠ "") (hd : 0 ≤ d)
    (hint : InRange d) :
    ∃ data, AddAction Unmarshal ToLower emptyStore input = some (none, data) ∧
      ∀ iter, RangeOrder data iter →
        avgStructs iter = some [AvgAction.mk (ToLower n) d] ∧
        GetStats jsonMarshal iter = some (jsonMarshal [AvgAction.mk (ToLower n) d]) := by
  have hv : validateAction (Action.mk n d) = none := by
    simp [validateAction, hn, not_lt.mpr hd]
  refine ⟨[(ToLower n, [d, 1])], ?_, ?_⟩
  · simp [AddAction, hdecode, hv, processAction, emptyStore, mapGet, mapSet]
  · intro iter hiter
    have hi : iter = [(ToLower n, [d, 1])] := List.perm_singleton.mp hiter
    have havg : avgStructs iter = some [AvgAction.mk (ToLower n) d] := by
      rw [hi]
      simp only [avgStructs, goDiv, Option.map_some']
      rw [if_neg (by decide), goAvg_of_nonneg d 1 hd hint.2 (by decide)]
      simp
    exact ⟨havg, by simp [GetStats, havg]⟩

/-- C15, witness: the input of `TestAddActionSingleEntry`; the output is the
string the test expects. -/
theorem single_event_report_witness :
    ∃ data, AddAction (jsonUnmarshal parseRecord) asciiLower emptyStore
        "\x7b\"action\":\"jump\", \"time\":100\x7d" = some (none, data) ∧
      ∀ iter, RangeOrder data iter →
        avgStructs iter = some [AvgAction.mk "jump" 100] ∧
        GetStats jsonMarshal iter = some "[\x7b\"action\":\"jump\",\"avg\":100\x7d]" := by
  have h := single_event_report (jsonUnmarshal parseRecord) asciiLower
    "\x7b\"action\":\"jump\", \"time\":100\x7d" "jump" 100 (by decide) (by decide)
    (by decide) (by decide)
  have e1 : asciiLower "jump" = "jump" := by decide
  have e2 : jsonMarshal [AvgAction.mk "jump" 100] =
      "[\x7b\"action\":\"jump\",\"avg\":100\x7d]" := by decide
  rw [e1, e2] at h
  exact h

theorem statsLoop_eq (iter : Store) :
    ∀ st : StatsState, statsLoop st iter =
      (avgStructs iter).map (fun recs => StatsState.mk st.data (st.avgStructs ++ recs)) := by
  induction iter with
  | nil => intro st; simp [statsLoop, avgStructs]
  | cons p rest ih =>
    intro st
    obtain ⟨k, v⟩ := p
    match v with
    | [] => simp [statsLoop, statsStep, avgStructs]
    | [_] => simp [statsLoop, statsStep, avgStructs]
    | v0 :: v1 :: more =>
      cases hg : goDiv v0 v1 with
      | none => simp [statsLoop, statsStep, avgStructs, hg]
      | some avg =>
        simp only [statsLoop, statsStep, avgStructs, hg, ih]
        cases avgStructs rest with
        | none => simp
        | some recs => simp

/-- C20: when `GetStats` returns, the store after the call is the store
before it, with the same keys and the same entries, and the output is that of
`GetStats`; and it returns whenever no entry makes the loop body panic. -/
theorem GetStats_read_only (Marshal : AvgActions → String) (data iter : Store)
    (hiter : RangeOrder data iter) :
    (∀ out data', GetStatsRun Marshal data iter = some (out, data') →
      data' = data ∧ keys data' = keys data ∧ (∀ k, mapGet data' k = mapGet data k) ∧
      GetStats Marshal iter = some out) ∧
    ((∀ p ∈ data, EntryOk p) →
      ∃ out, GetStatsRun Marshal data iter = some (out, data)) := by
  constructor
  · intro out data' h
    simp only [GetStatsRun, statsLoop_eq] at h
    cases hr : avgStructs iter with
    | none => simp [hr] at h
    | some recs =>
      simp only [hr, Option.map_some', Option.some.injEq, Prod.mk.injEq, List.nil_append] at h
      obtain ⟨h1, h2⟩ := h
      subst h2
      exact ⟨rfl, rfl, fun _ => rfl, by simp [GetStats, hr, h1]⟩
  · intro hok
    have h := avgStructs_of_entryOk iter
      (fun p hp => hok p ((List.Perm.mem_iff hiter).mp hp))
    exact ⟨Marshal (iter.map avgOf), by simp [GetStatsRun, statsLoop_eq, h]⟩

/-- C20, witness: the store of `TestAddActionMultipleEntry`, visited with
"run" first. -/
theorem GetStats_read_only_witness :
    GetStatsRun jsonMarshal [("jump", [600, 3]), ("run", [75, 1])]
        [("run", [75, 1]), ("jump", [600, 3])] =
      some ("[\x7b\"action\":\"run\",\"avg\":75\x7d,\x7b\"action\":\"jump\",\"avg\":200\x7d]",
        [("jump", [600, 3]), ("run", [75, 1])]) ∧
    ([("jump", [600, 3]), ("run", [75, 1])] : Store) = [("jump", [600, 3]), ("run", [75, 1])] ∧
    GetStats jsonMarshal [("run", [75, 1]), ("jump", [600, 3])] =
      some "[\x7b\"action\":\"run\",\"avg\":75\x7d,\x7b\"action\":\"jump\",\"avg\":200\x7d]" :=
  have h := (GetStats_read_only jsonMarshal [("jump", [600, 3]), ("run", [75, 1])]
    [("run", [75, 1]), ("jump", [600, 3])] (List.Perm.swap _ _ _)).1
    "[\x7b\"action\":\"run\",\"avg\":75\x7d,\x7b\"action\":\"jump\",\"avg\":200\x7d]"
    [("jump", [600, 3]), ("run", [75, 1])] (by decide)
  ⟨by decide, h.1, h.2.2.2⟩


/-! ## Decoding of records, validation order, frame -/

theorem decodeFields_append (xs : List (String × JValue)) :
    ∀ (acc : Action) (f : String × JValue),
      decodeFields acc (xs ++ [f]) =
        match decodeFields acc xs with
        | .ok a => decodeField a f
        | .error msg => .error msg := by
  induction xs with
  | nil =>
    intro acc f
    cases h : decodeField acc f <;> simp [decodeFields, h]
  | cons x rest ih =>
    intro acc f
    cases h : decodeField acc x with
    | error msg => simp [decodeFields, h]
    | ok a => simp [decodeFields, h, ih]

theorem fieldValue_append_same (name : String) (xs : List (String × JValue)) (v : JValue) :
    fieldValue name (xs ++ [(name, v)]) = some v := by
  simp [fieldValue, List.filter_append]

theorem fieldValue_append_other (name : String) (xs : List (String × JValue))
    (f : String × JValue) (h : f.1 ≠ name) :
    fieldValue name (xs ++ [f]) = fieldValue name xs := by
  simp [fieldValue, List.filter_append, h]

/-- A record of the shape of the input schema decodes, and the event is given
by the last "action" and the last "time" field. -/
theorem decodeFields_wellFormed (fields : List (String × JValue))
    (hwf : WellFormed fields) :
    decodeFields (Action.mk "" 0) fields = .ok (Action.mk (nameOf fields) (timeOf fields)) := by
  induction fields using List.reverseRecOn with
  | nil => simp [decodeFields, nameOf, timeOf, fieldValue]
  | append_singleton xs f ih =>
    have hxs : WellFormed xs := fun g hg => hwf g (List.mem_append_left _ hg)
    have hf := hwf f (List.mem_append_right _ (List.mem_singleton_self f))
    rw [decodeFields_append, ih hxs]
    obtain ⟨name, v⟩ := f
    by_cases ha : name = "action"
    · subst ha
      obtain ⟨s, hs⟩ := hf.1 rfl
      simp only at hs
      subst hs
      have hne : ("action" : String) ≠ "time" := by decide
      simp [decodeField, nameOf, timeOf, fieldValue_append_same,
        fieldValue_append_other "time" xs ("action", JValue.str s) hne]
    · by_cases ht : name = "time"
      · subst ht
        obtain ⟨n, hn, h1, h2, h3⟩ := hf.2 rfl
        simp only at hn
        subst hn
        have hne : ("time" : String) ≠ "action" := by decide
        simp [decodeField, nameOf, timeOf, fieldValue_append_same,
          fieldValue_append_other "action" xs ("time", JValue.num n) hne, h1, h2, h3]
      · simp [decodeField, ha, ht, nameOf, timeOf,
          fieldValue_append_other "action" xs (name, v) ha,
          fieldValue_append_other "time" xs (name, v) ht]

theorem fieldValue_eq_none (name : String) (fields : List (String × JValue))
    (h : ∀ f ∈ fields, f.1 ≠ name) : fieldValue name fields = none := by
  have : fields.filter (fun f => decide (f.1 = name)) = [] := by
    apply List.filter_eq_nil_iff.mpr
    intro f hf
    simp [h f hf]
  simp [fieldValue, this]

/-- C16: an input record of the shape of the input schema that has no field
"action" decodes, with the empty name, so `AddAction` returns the empty-name
error and not a decode error, and leaves the store as it was. -/
theorem AddAction_absent_action (parse : String → Option (List (String × JValue)))
    (ToLower : String → String) (data : Store) (input : String)
    (fields : List (String × JValue))
    (hparse : parse input = some fields) (hwf : WellFormed fields)
    (habsent : ∀ f ∈ fields, f.1 ≠ "action") :
    jsonUnmarshal parse input = .ok (Action.mk "" (timeOf fields)) ∧
      AddAction (jsonUnmarshal parse) ToLower data input =
        some (some (GoError.new "Invaild action: "), data) := by
  have hname : nameOf fields = "" := by
    simp [nameOf, fieldValue_eq_none "action" fields habsent]
  have hdec : jsonUnmarshal parse input = .ok (Action.mk "" (timeOf fields)) := by
    simp [jsonUnmarshal, hparse, decodeFields_wellFormed fields hwf, hname]
  exact ⟨hdec, by simp [AddAction, hdec, validateAction]⟩

/-- C16, witness: the input of `TestInvalidJsonAction` on a store that holds
an entry. -/
theorem AddAction_absent_action_witness :
    jsonUnmarshal parseRecord "\x7b\"abcdef\":\"jump\", \"time\":100\x7d" =
        .ok (Action.mk "" 100) ∧
      AddAction (jsonUnmarshal parseRecord) asciiLower [("jump", [100, 1])]
          "\x7b\"abcdef\":\"jump\", \"time\":100\x7d" =
        some (some (GoError.new "Invaild action: "), [("jump", [100, 1])]) := by
  have h := AddAction_absent_action parseRecord asciiLower [("jump", [100, 1])]
    "\x7b\"abcdef\":\"jump\", \"time\":100\x7d"
    [("abcdef", JValue.str "jump"), ("time", JValue.num (NumLit.mk false 100 false false))]
    (by decide) (by decide) (by decide)
  have e : timeOf [("abcdef", JValue.str "jump"),
      ("time", JValue.num (NumLit.mk false 100 false false))] = 100 := by decide
  rw [e] at h
  exact h

/-- C17: for an input record of the shape of the input schema, decoding
gives the event of the last "action" field and the last "time" field, and
`AddAction` does what it does on that event; any other record of that shape
with the same last "action" and the same last "time" decodes to the same
event, so fields of other names and earlier occurrences have no effect. -/
theorem AddAction_last_fields (parse : String → Option (List (String × JValue)))
    (ToLower : String → String) (data : Store) (input : String)
    (fields : List (String × JValue))
    (hparse : parse input = some fields) (hwf : WellFormed fields) :
    jsonUnmarshal parse input = .ok (Action.mk (nameOf fields) (timeOf fields)) ∧
      AddAction (jsonUnmarshal parse) ToLower data input =
        AddAction (fun _ => .ok (Action.mk (nameOf fields) (timeOf fields))) ToLower data
          input ∧
      ∀ others, WellFormed others →
        fieldValue "action" others = fieldValue "action" fields →
        fieldValue "time" others = fieldValue "time" fields →
        decodeFields (Action.mk "" 0) others = decodeFields (Action.mk "" 0) fields := by
  have hdec : jsonUnmarshal parse input = .ok (Action.mk (nameOf fields) (timeOf fields)) := by
    simp [jsonUnmarshal, hparse, decodeFields_wellFormed fields hwf]
  refine ⟨hdec, by simp [AddAction, hdec], ?_⟩
  intro others hwo ha ht
  rw [decodeFields_wellFormed others hwo, decodeFields_wellFormed fields hwf]
  simp [nameOf, timeOf, ha, ht]

/-- C17, witness: the input of `TestJsonExtraAndDuplicateData` on the empty
store: the event is ("jump", 200) and the report is the string the test
expects. -/
theorem AddAction_last_fields_witness :
    jsonUnmarshal parseRecord extraAndDuplicateInput = .ok (Action.mk "jump" 200) ∧
      AddAction (jsonUnmarshal parseRecord) asciiLower emptyStore extraAndDuplicateInput =
        some (none, [("jump", [200, 1])]) ∧
      GetStats jsonMarshal [("jump", [200, 1])] =
        some "[\x7b\"action\":\"jump\",\"avg\":200\x7d]" := by
  have h := (AddAction_last_fields parseRecord asciiLower emptyStore extraAndDuplicateInput
    [("action", JValue.str "jump"), ("fox", JValue.str "ran"),
     ("5", JValue.num (NumLit.mk false 34 false false)),
     ("time", JValue.num (NumLit.mk false 150 false false)),
     ("Valid", JValue.str "string"),
     ("time", JValue.num (NumLit.mk false 200 false false))]
    (by decide) (by decide)).1
  exact ⟨h.trans (by decide), by decide, by decide⟩

/-- C13 (amended): a valid event `(n, 0)` makes `AddAction` return no error;
an absent key gets the entry `[0, 1]`, and an entry `[s, c]` whose sum is a
Go `int` keeps its sum and gets the count `wrap64 (c + 1)`, which is `c + 1`
unless `c` is the largest 64-bit integer. -/
theorem AddAction_zero_duration (Unmarshal : String → Except String Action)
    (ToLower : String → String) (data : Store) (input n : String)
    (hdecode : Unmarshal input = .ok (Action.mk n 0)) (hn : n ≠ "") :
    (mapGet data (ToLower n) = none →
      AddAction Unmarshal ToLower data input =
        some (none, mapSet data (ToLower n) [0, 1])) ∧
    (∀ s c, mapGet data (ToLower n) = some [s, c] → InRange s →
      AddAction Unmarshal ToLower data input =
          some (none, mapSet data (ToLower n) [s, wrap64 (c + 1)]) ∧
        (InRange (c + 1) →
          AddAction Unmarshal ToLower data input =
            some (none, mapSet data (ToLower n) [s, c + 1]))) := by
  have hv : validateAction (Action.mk n 0) = none := by
    simp [validateAction, hn]
  constructor
  · intro habs
    simp [AddAction, hdecode, hv, processAction, habs]
  · intro s c hpres hs
    have h0 : wrap64 (s + 0) = s := by
      rw [add_zero]; exact wrap64_of_inRange hs
    have h : AddAction Unmarshal ToLower data input =
        some (none, mapSet data (ToLower n) [s, wrap64 (c + 1)]) := by
      simp [AddAction, hdecode, hv, processAction, hpres, wrap64_of_inRange hs]
    refine ⟨h, ?_⟩
    intro hc
    rw [h, wrap64_of_inRange hc]

/-- C13, witness: "jump" with time 0 on a store holding `[100, 1]` for
"jump": the entry becomes `[100, 2]`. -/
theorem AddAction_zero_duration_witness :
    AddAction (jsonUnmarshal parseRecord) asciiLower [("jump", [100, 1])]
        "\x7b\"action\":\"jump\", \"time\":0\x7d" =
      some (none, mapSet [("jump", [100, 1])] (asciiLower "jump") [100, 1 + 1]) :=
  ((AddAction_zero_duration (jsonUnmarshal parseRecord) asciiLower [("jump", [100, 1])]
    "\x7b\"action\":\"jump\", \"time\":0\x7d" "jump" (by decide) (by decide)).2
      100 1 (by decide) (by decide)).2 (by decide)

/-- C13, counterexample: the store reached by `2^63 - 1` valid calls for
"jump" with time 0 holds the count `2^63 - 1`; one more such call returns no
error and leaves the count `-2^63`, which is not the count plus 1. -/
theorem zero_duration_count_wraps :
    addActions (jsonUnmarshal parseRecord) asciiLower emptyStore
        (List.replicate 9223372036854775807 "\x7b\"action\":\"jump\", \"time\":0\x7d") =
      some [("jump", [0, 9223372036854775807])] ∧
    AddAction (jsonUnmarshal parseRecord) asciiLower [("jump", [0, 9223372036854775807])]
        "\x7b\"action\":\"jump\", \"time\":0\x7d" =
      some (none, [("jump", [0, -9223372036854775808])]) ∧
    (9223372036854775807 + 1 : Int) ≠ -9223372036854775808 := by
  have hd : jsonUnmarshal parseRecord "\x7b\"action\":\"jump\", \"time\":0\x7d" =
      .ok (Action.mk "jump" 0) := by decide
  have e1 : asciiLower "jump" = "jump" := by decide
  have h1 := addActions_replicate_zero (jsonUnmarshal parseRecord) asciiLower
    "\x7b\"action\":\"jump\", \"time\":0\x7d" "jump" 9223372036854775807 (by decide)
    (by decide) hd
  have w1 : wrap64 ((9223372036854775807 : Nat) : Int) = 9223372036854775807 := by decide
  rw [e1, w1] at h1
  exact ⟨h1, by decide, by decide⟩

theorem processAction_of_slicesOk (ToLower : String → String) (data : Store)
    (action : Action) (h : SlicesOk data) :
    ∃ data', processAction ToLower data action = some data' := by
  cases hg : mapGet data (ToLower action.Action) with
  | none =>
    exact ⟨mapSet data (ToLower action.Action) [action.Time, 1],
      by simp [processAction, hg]⟩
  | some val =>
    obtain ⟨v0, v1, more, rfl⟩ := h _ val hg
    exact ⟨mapSet data (ToLower action.Action)
      (wrap64 (v0 + action.Time) :: wrap64 (v1 + 1) :: more), by simp [processAction, hg]⟩

/-- C18: `AddAction` returns the first error in the order decode, empty name,
negative duration: a decode failure gives the decode error; a decoded event
with the empty name gives the empty-name error, also when its duration is
negative; a decoded event with a non-empty name and a negative duration gives
the negative-duration error; a returned error is `nil` exactly when the input
decodes to a non-empty name and a duration `≥ 0`; and the call returns
whenever the slices of the map have their two elements. -/
theorem AddAction_error_order (Unmarshal : String → Except String Action)
    (ToLower : String → String) (data : Store) (input : String) :
    (∀ msg, Unmarshal input = .error msg →
      AddAction Unmarshal ToLower data input = some (some (GoError.decode msg), data)) ∧
    (∀ d, Unmarshal input = .ok (Action.mk "" d) →
      AddAction Unmarshal ToLower data input =
        some (some (GoError.new "Invaild action: "), data)) ∧
    (∀ n d, Unmarshal input = .ok (Action.mk n d) → n ≠ "" → d < 0 →
      AddAction Unmarshal ToLower data input =
        some (some (GoError.new ("Invaild time value: " ++ toString d)), data)) ∧
    (∀ err data', AddAction Unmarshal ToLower data input = some (err, data') →
      (err = none ↔ ∃ n d, Unmarshal input = .ok (Action.mk n d) ∧ n ≠ "" ∧ 0 ≤ d)) ∧
    (SlicesOk data → ∃ err data', AddAction Unmarshal ToLower data input = some (err, data')) := by
  refine ⟨?_, ?_, ?_, ?_, ?_⟩
  · intro msg h
    simp [AddAction, h]
  · intro d h
    simp [AddAction, h, validateAction]
  · intro n d h hn hd
    simp [AddAction, h, validateAction, hn, hd]
  · intro err data' h
    cases hu : Unmarshal input with
    | error msg =>
      simp only [AddAction, hu, Option.some.injEq, Prod.mk.injEq] at h
      constructor
      · intro he; rw [he] at h; exact absurd h.1 (by simp)
      · rintro ⟨n, d, hnd, _⟩; cases hnd
    | ok a =>
      obtain ⟨n, d⟩ := a
      by_cases hn : n = ""
      · subst hn
        simp only [AddAction, hu, validateAction, if_true, Option.some.injEq,
          Prod.mk.injEq] at h
        constructor
        · intro he; rw [he] at h; exact absurd h.1 (by simp)
        · rintro ⟨n', d', hnd, hn', _⟩
          cases hnd
          exact absurd rfl hn'
      · by_cases hd : d < 0
        · simp only [AddAction, hu, validateAction, hn, hd, if_true, if_false,
            Option.some.injEq, Prod.mk.injEq] at h
          constructor
          · intro he; rw [he] at h; exact absurd h.1 (by simp)
          · rintro ⟨n', d', hnd, _, hd'⟩
            cases hnd
            omega
        · constructor
          · intro _
            exact ⟨n, d, rfl, hn, not_lt.mp hd⟩
          · intro _
            simp only [AddAction, hu, validateAction, hn, hd, if_false] at h
            cases hp : processAction ToLower data (Action.mk n d) with
            | none => simp [hp] at h
            | some out =>
              simp only [hp, Option.some.injEq, Prod.mk.injEq] at h
              exact h.1.symm
  · intro hs
    cases hu : Unmarshal input with
    | error msg => exact ⟨some (GoError.decode msg), data, by simp [AddAction, hu]⟩
    | ok a =>
      cases hv : validateAction a with
      | some e => exact ⟨some e, data, by simp [AddAction, hu, hv]⟩
      | none =>
        obtain ⟨out, hout⟩ := processAction_of_slicesOk ToLower data a hs
        exact ⟨none, out, by simp [AddAction, hu, hv, hout]⟩

theorem mem_mapSet_other (data : Store) (key other : String) (val v : List Int)
    (h : other ≠ key) : (other, v) ∈ mapSet data key val ↔ (other, v) ∈ data := by
  induction data with
  | nil => simp [mapSet, h]
  | cons p rest ih =>
    obtain ⟨k, w⟩ := p
    by_cases hk : k = key
    · subst hk
      simp [mapSet, h, Ne.symm h]
    · simp [mapSet, hk, ih]

/-- C19: a successful `AddAction` for an event named `n` leaves every key
other than `ToLower n` as it was: the same entries, the same result of a map
read, and the key is in the map after the call exactly when it was
before. -/
theorem AddAction_frame (Unmarshal : String → Except String Action)
    (ToLower : String → String) (data data' : Store) (input n : String) (d : Int)
    (hdecode : Unmarshal input = .ok (Action.mk n d))
    (hok : AddAction Unmarshal ToLower data input = some (none, data')) :
    ∀ k, k ≠ ToLower n →
      mapGet data' k = mapGet data k ∧
      (∀ v, (k, v) ∈ data' ↔ (k, v) ∈ data) ∧
      (k ∈ keys data' ↔ k ∈ keys data) := by
  have hset : ∃ val, data' = mapSet data (ToLower n) val := by
    cases hv : validateAction (Action.mk n d) with
    | some e => simp [AddAction, hdecode, hv] at hok
    | none =>
      simp only [AddAction, hdecode, hv] at hok
      cases hg : mapGet data (ToLower n) with
      | none =>
        simp only [processAction, hg, Option.some.injEq, Prod.mk.injEq, true_and] at hok
        exact ⟨_, hok.symm⟩
      | some val =>
        match val, hg with
        | [], hg => simp [processAction, hg] at hok
        | [_], hg => simp [processAction, hg] at hok
        | v0 :: v1 :: more, hg =>
          simp only [processAction, hg, Option.some.injEq, Prod.mk.injEq, true_and] at hok
          exact ⟨_, hok.symm⟩
  obtain ⟨val, rfl⟩ := hset
  intro k hk
  have hget := mapGet_mapSet_other data (ToLower n) k val hk
  refine ⟨hget, fun v => mem_mapSet_other data (ToLower n) k val v hk, ?_⟩
  have h1 := mapGet_eq_none_iff (mapSet data (ToLower n) val) k
  have h2 := mapGet_eq_none_iff data k
  rw [hget] at h1
  constructor
  · intro hin
    by_contra hnot
    exact (h1.mp (h2.mpr hnot)) hin
  · intro hin
    by_contra hnot
    exact (h2.mp (h1.mpr hnot)) hin

/-- C19, witness: "Jump" with 200 on a store holding "run" and "jump": the
entry of "run" is as before. -/
theorem AddAction_frame_witness :
    mapGet [("run", [75, 1]), ("jump", [300, 2])] "run" =
        mapGet [("run", [75, 1]), ("jump", [100, 1])] "run" ∧
      (∀ v, ("run", v) ∈ ([("run", [75, 1]), ("jump", [300, 2])] : Store) ↔
        ("run", v) ∈ ([("run", [75, 1]), ("jump", [100, 1])] : Store)) ∧
      ("run" ∈ keys [("run", [75, 1]), ("jump", [300, 2])] ↔
        "run" ∈ keys [("run", [75, 1]), ("jump", [100, 1])]) :=
  AddAction_frame (jsonUnmarshal parseRecord) asciiLower
    [("run", [75, 1]), ("jump", [100, 1])] [("run", [75, 1]), ("jump", [300, 2])]
    "\x7b\"action\":\"Jump\", \"time\":200\x7d" "Jump" 200 (by decide) (by decide)
    "run" (by decide)


end Actions
